import Mathlib

/-!
A verification development for the VibeFit tracker single-page application
(`src/index.tsx` and `public/sw.js`).  The TypeScript core is shallowly
embedded: JavaScript plain objects used as string-keyed maps become
association lists (preserving insertion order and the in-place update
semantics of `{ ...obj, [k]: v }`), the browser `URL` / `URLSearchParams`
API is modelled on the subset of URL shapes the application handles
(`scheme://host/path?query`, no port, userinfo, fragment or percent
encoding), `JSON.parse` and `localStorage` are abstracted as explicit
parameters, and the `Date.now()` / `Math.random()` identifier nonces are
abstracted as an explicit generator argument.
-/

set_option autoImplicit false

namespace VibeFit

universe u

/-! ## Association-list model of JS string-keyed objects -/

/-- `obj[k]`: first binding for `k`, if any. -/
def getKey {α : Type u} (m : List (String × α)) (k : String) : Option α :=
  match m with
  | [] => none
  | p :: rest => if p.1 = k then some p.2 else getKey rest k

/-- `k in obj`: whether a binding for `k` exists. -/
def hasKey {α : Type u} (m : List (String × α)) (k : String) : Bool :=
  match m with
  | [] => false
  | p :: rest => if p.1 = k then true else hasKey rest k

/-- Replace the value of every binding for `k` in place (key order kept). -/
def replaceKey {α : Type u} (m : List (String × α)) (k : String) (v : α) :
    List (String × α) :=
  m.map (fun p => if p.1 = k then (p.1, v) else p)

/-- `{ ...obj, [k]: v }` / `obj[k] = v`: update in place if the key exists,
otherwise append the new binding at the end, as JS object spread does. -/
def setKey {α : Type u} (m : List (String × α)) (k : String) (v : α) :
    List (String × α) :=
  if hasKey m k then replaceKey m k v else m ++ [(k, v)]

/-- Apply `f` to the value bound to `k` (in place), used to model
`obj[k] = f(obj[k])` when the key is known to be present. -/
def modifyKey {α : Type u} (m : List (String × α)) (k : String) (f : α → α) :
    List (String × α) :=
  m.map (fun p => if p.1 = k then (p.1, f p.2) else p)

/-- The ordered list of keys of the object. -/
def keysOf {α : Type u} (m : List (String × α)) : List String :=
  m.map Prod.fst

theorem getKey_isSome_of_hasKey {α : Type u} (m : List (String × α)) (k : String)
    (h : hasKey m k = true) : ∃ v, getKey m k = some v := by
  induction m with
  | nil => simp [hasKey] at h
  | cons p rest ih =>
    by_cases hk : p.1 = k
    · exact ⟨p.2, by simp [getKey, hk]⟩
    · simp [hasKey, hk] at h
      obtain ⟨v, hv⟩ := ih h
      exact ⟨v, by simp [getKey, hk, hv]⟩

theorem hasKey_of_getKey_some {α : Type u} (m : List (String × α)) (k : String)
    (v : α) (h : getKey m k = some v) : hasKey m k = true := by
  induction m with
  | nil => simp [getKey] at h
  | cons p rest ih =>
    by_cases hk : p.1 = k
    · simp [hasKey, hk]
    · simp [getKey, hk] at h
      simp [hasKey, hk, ih h]

theorem getKey_replaceKey_self {α : Type u} (m : List (String × α)) (k : String)
    (v : α) (h : hasKey m k = true) : getKey (replaceKey m k v) k = some v := by
  induction m with
  | nil => simp [hasKey] at h
  | cons p rest ih =>
    by_cases hk : p.1 = k
    · simp [replaceKey, getKey, hk]
    · simp [hasKey, hk] at h
      simp [replaceKey, getKey, hk]
      exact ih h

theorem getKey_append_single_self {α : Type u} (m : List (String × α)) (k : String)
    (v : α) (h : hasKey m k = false) : getKey (m ++ [(k, v)]) k = some v := by
  induction m with
  | nil => simp [getKey]
  | cons p rest ih =>
    by_cases hk : p.1 = k
    · simp [hasKey, hk] at h
    · simp [hasKey, hk] at h
      simp [getKey, hk]
      exact ih h

/-- Looking up the key just written returns the written value. -/
theorem getKey_setKey_self {α : Type u} (m : List (String × α)) (k : String)
    (v : α) : getKey (setKey m k v) k = some v := by
  unfold setKey
  by_cases h : hasKey m k = true
  · simp [h, getKey_replaceKey_self m k v h]
  · simp at h
    simp [h, getKey_append_single_self m k v h]

/-- Writing a key that is already present keeps the key list unchanged. -/
theorem keysOf_replaceKey {α : Type u} (m : List (String × α)) (k : String)
    (v : α) : keysOf (replaceKey m k v) = keysOf m := by
  induction m with
  | nil => rfl
  | cons p rest ih =>
    by_cases hk : p.1 = k
    · simp [replaceKey, keysOf, hk] at ih ⊢
      exact ih
    · simp [replaceKey, keysOf, hk] at ih ⊢
      exact ih

/-- Writing a key that is already present keeps the key list unchanged. -/
theorem keysOf_setKey_of_hasKey {α : Type u} (m : List (String × α)) (k : String)
    (v : α) (h : hasKey m k = true) : keysOf (setKey m k v) = keysOf m := by
  unfold setKey
  simp [h, keysOf_replaceKey]

/-- Membership in the key list coincides with `hasKey`. -/
theorem hasKey_iff_mem_keysOf {α : Type u} (m : List (String × α)) (k : String) :
    hasKey m k = true ↔ k ∈ keysOf m := by
  induction m with
  | nil => simp [hasKey, keysOf]
  | cons p rest ih =>
    by_cases hk : p.1 = k
    · simp [hasKey, keysOf, hk]
    · simp only [hasKey, keysOf, hk, if_false, List.map_cons, List.mem_cons]
      rw [ih]
      constructor
      · intro hm
        exact Or.inr hm
      · intro hm
        cases hm with
        | inl heq => exact absurd heq.symm hk
        | inr hm => exact hm

/-- `modifyKey` applies `f` at a present key, seen through `getKey`. -/
theorem getKey_modifyKey_self {α : Type u} (m : List (String × α)) (k : String)
    (f : α → α) (v : α) (h : getKey m k = some v) :
    getKey (modifyKey m k f) k = some (f v) := by
  induction m with
  | nil => simp [getKey] at h
  | cons p rest ih =>
    by_cases hk : p.1 = k
    · simp [getKey, hk] at h
      simp [modifyKey, getKey, hk, h]
    · simp [getKey, hk] at h
      simp [modifyKey, getKey, hk]
      exact ih h

/-! ## JS `String.prototype.trim` model -/

/-- The common JS whitespace characters (subset of the full Unicode set,
covering every character this application's inputs can contain). -/
def isJsWs (c : Char) : Bool :=
  c == ' ' || c == '\t' || c == '\n' || c == '\r'

def trimChars (l : List Char) : List Char :=
  List.rdropWhile isJsWs (List.dropWhile isJsWs l)

/-- `s.trim()`. -/
def jsTrim (s : String) : String :=
  String.mk (trimChars s.data)

theorem trimChars_idem (l : List Char) : trimChars (trimChars l) = trimChars l := by
  unfold trimChars
  set s := List.dropWhile isJsWs l with hs
  set t := List.rdropWhile isJsWs s with ht
  have hdrop : List.dropWhile isJsWs t = t := by
    rw [List.dropWhile_eq_self_iff]
    intro hl
    have hpre : t <+: s := ht ▸ List.rdropWhile_prefix isJsWs s
    have hlen : 0 < s.length := lt_of_lt_of_le hl hpre.length_le
    have hget : t.get ⟨0, hl⟩ = s.get ⟨0, hlen⟩ := by
      simp [List.get_eq_getElem, hpre.getElem hl]
    rw [hget]
    exact List.dropWhile_get_zero_not isJsWs l hlen
  rw [hdrop, ht]
  exact List.rdropWhile_idempotent isJsWs s

theorem jsTrim_idem (s : String) : jsTrim (jsTrim s) = jsTrim s := by
  unfold jsTrim
  rw [show (String.mk (trimChars s.data)).data = trimChars s.data from rfl,
    trimChars_idem]

/-! ## Kernel-computable string helpers (structural recursion on the
underlying char list, mirroring the corresponding JS string methods) -/

/-- Split a char list at the first occurrence of `c`; `none` second
component when `c` does not occur. -/
def breakAt (c : Char) : List Char → List Char × Option (List Char)
  | [] => ([], none)
  | x :: xs =>
    if x = c then ([], some xs)
    else
      let r := breakAt c xs
      (x :: r.1, r.2)

/-- Split a char list on every occurrence of `c`. -/
def splitOnChar (c : Char) : List Char → List (List Char)
  | [] => [[]]
  | x :: xs =>
    let r := splitOnChar c xs
    if x = c then [] :: r
    else
      match r with
      | [] => [[x]]
      | h :: t => (x :: h) :: t

/-- Decimal digits to a number: `parseInt`-like on an all-digit string,
`none` otherwise. -/
def charsToNat? (l : List Char) : Option Nat :=
  if l = [] ∨ ¬ l.all Char.isDigit then none
  else some (l.foldl (fun n c => n * 10 + (c.toNat - 48)) 0)

/-- `s.toLowerCase()` (ASCII range, all this application needs). -/
def jsToLower (s : String) : String :=
  String.mk (s.data.map Char.toLower)

/-- `s.startsWith(p)`. -/
def strPrefixOf (p s : String) : Bool :=
  p.data.isPrefixOf s.data

/-! ## Date / weekday utilities (`ymd` consumers, `weekdayStr`) -/

/-- The seven weekday labels, Sunday first, as indexed by `Date.getDay()`. -/
def weekdayNames : List String := ["日", "月", "火", "水", "木", "金", "土"]

/-- Parse a `YYYY-MM-DD` date key into its numeric parts; `none` models the
JS `Invalid Date` outcome for anything else. -/
def parseDateParts (s : String) : Option (Nat × Nat × Nat) :=
  match splitOnChar '-' s.data with
  | [y, m, d] =>
    match charsToNat? y, charsToNat? m, charsToNat? d with
    | some yn, some mn, some dn =>
      if 1 ≤ mn ∧ mn ≤ 12 ∧ 1 ≤ dn ∧ dn ≤ 31 then some (yn, mn, dn) else none
    | _, _, _ => none
  | _ => none

/-- Gregorian day of week (0 = Sunday), Sakamoto's method; models
`new Date(dateStr).getDay()` with the date string read as a calendar day. -/
def dayOfWeek (y m d : Nat) : Nat :=
  let t : List Nat := [0, 3, 2, 5, 0, 3, 5, 1, 4, 6, 2, 4]
  let y2 := if m < 3 then y - 1 else y
  (y2 + y2 / 4 - y2 / 100 + y2 / 400 + t.getD (m - 1) 0 + d) % 7

/-- `weekdayStr`: weekday label of a date key; a malformed key yields `""`
(a non-weekday label, modelling the JS `undefined` index result). -/
def weekdayStr (dateStr : String) : String :=
  match parseDateParts dateStr with
  | some (y, m, d) => weekdayNames.getD (dayOfWeek y m d) ""
  | none => ""

/-! ## URL model (the subset of the WHATWG `URL` API the code uses) -/

/-- A parsed absolute `http(s)` URL: scheme and host lowercased, `path`
starting with `/`, query as an ordered key-value list.  Port, userinfo,
fragment and percent-encoding are outside the modelled subset (none of the
URL shapes the application handles use them). -/
structure UrlModel where
  scheme : String
  host : String
  path : String
  params : List (String × String)
deriving Repr, DecidableEq

/-- `URLSearchParams` parsing: split on `&`, each segment at the first `=`
(missing `=` means empty value); empty segments are skipped. -/
def parseQuery (q : List Char) : List (String × String) :=
  (splitOnChar '&' q).filterMap (fun seg =>
    if seg = [] then none
    else
      let kv := breakAt '=' seg
      some (String.mk kv.1, String.mk (kv.2.getD [])))

/-- `new URL(s)` on the modelled subset: requires an `http://`/`https://`
scheme (case-insensitive) and a nonempty space-free authority; `none`
models the constructor throwing. -/
def parseUrlCore (scheme : String) (chars : List Char) : Option UrlModel :=
  let hostChars := chars.takeWhile (fun c => c != '/' && c != '?')
  let afterHost := chars.drop hostChars.length
  if hostChars = [] ∨ hostChars.contains ' ' then none
  else
    let pq := breakAt '?' afterHost
    some
      { scheme := scheme
        host := jsToLower (String.mk hostChars)
        path := if pq.1 = [] then "/" else String.mk pq.1
        params := match pq.2 with
          | none => []
          | some q => parseQuery q }

def parseUrl (s : String) : Option UrlModel :=
  if strPrefixOf "https://" (jsToLower s) then parseUrlCore "https" (s.data.drop 8)
  else if strPrefixOf "http://" (jsToLower s) then parseUrlCore "http" (s.data.drop 7)
  else none

/-- `key=value&key=value` serialization of `URLSearchParams`. -/
def joinQuery : List (String × String) → String
  | [] => ""
  | [p] => p.1 ++ "=" ++ p.2
  | p :: rest => p.1 ++ "=" ++ p.2 ++ "&" ++ joinQuery rest

/-- The search component of `url.toString()`: empty without parameters,
otherwise `?` followed by the joined parameters. -/
def queryString (ps : List (String × String)) : String :=
  match ps with
  | [] => ""
  | _ => "?" ++ joinQuery ps

/-- `url.toString()` on the modelled subset. -/
def serializeUrl (u : UrlModel) : String :=
  u.scheme ++ "://" ++ u.host ++ u.path ++ queryString u.params

/-- `haystack.includes(needle)` on char lists: the remainder after the first
occurrence of `pat`, if any. -/
def findSub (pat : List Char) : List Char → Option (List Char)
  | [] => if pat.isPrefixOf ([] : List Char) then some [] else none
  | x :: xs =>
    if pat.isPrefixOf (x :: xs) then some (List.drop pat.length (x :: xs))
    else findSub pat xs

/-- `s.includes(pat)`. -/
def containsSub (pat s : String) : Bool :=
  (findSub pat.data s.data).isSome

/-- `pathname.match(/\/file\/d\/([^/]+)/)`: the capture after the first
occurrence of `/file/d/`, requiring at least one non-slash character. -/
def matchFileDriveId (path : String) : Option String :=
  match findSub "/file/d/".data path.data with
  | none => none
  | some rest =>
    let idChars := rest.takeWhile (fun c => c != '/')
    if idChars = [] then none else some (String.mk idChars)

/-- `raw` starts with `/`, `./` or `../` (the relative-path test). -/
def isRelativePath (s : String) : Bool :=
  strPrefixOf "/" s || strPrefixOf "./" s || strPrefixOf "../" s

/-- `/^https?:\/\//i.test(raw)`. -/
def isHttpUrl (s : String) : Bool :=
  strPrefixOf "http://" (jsToLower s) || strPrefixOf "https://" (jsToLower s)

/-- The Dropbox query rewrite: force `dl=1` when a `dl` flag exists,
otherwise add `raw=1` unless already present. -/
def dbParams (ps : List (String × String)) : List (String × String) :=
  if hasKey ps "dl" then setKey ps "dl" "1"
  else if !hasKey ps "raw" then setKey ps "raw" "1"
  else ps

/-- The Google Drive file id: from the `/file/d/<id>` path when present,
else the `id` query parameter (empty string when absent). -/
def driveIdOf (url : UrlModel) : String :=
  match matchFileDriveId url.path with
  | some i => i
  | none => (getKey url.params "id").getD ""

/-- The provider dispatch applied to a successfully parsed absolute URL. -/
def normBranch (url : UrlModel) : String :=
  if containsSub "dropbox.com" url.host then
    serializeUrl { url with params := dbParams url.params }
  else if containsSub "drive.google.com" url.host then
    let id := driveIdOf url
    if id ≠ "" then "https://drive.google.com/uc?export=download&id=" ++ id
    else serializeUrl url
  else serializeUrl url

/-- `normalizeMediaUrl`: canonicalize Dropbox / Google Drive share links to
direct-download links; keep everything else as-is. -/
def normalizeMediaUrl (u : String) : String :=
  let raw := jsTrim u
  if raw = "" then ""
  else if isRelativePath raw || !isHttpUrl raw then raw
  else
    match parseUrl raw with
    | none => u
    | some url => normBranch url

/-! ## Data model (`Entry`, `Settings`, `AppState`) -/

structure Meals where
  breakfast : String
  lunch : String
  dinner : String
  notes : String
deriving Repr, DecidableEq

def blankMeals : Meals :=
  { breakfast := "", lunch := "", dinner := "", notes := "" }

/-- A checklist item identifier, modelled as the tuple of the components
the code concatenates into the id string: `tpl` for the template ids
`` `${dateStr}-${i}-${Date.now()}-${Math.random()...}` `` built by
`buildEntry` (the `Date.now()`/`Math.random()` draw abstracted as a single
`nonce`), `added` for the `` `${dateStr}-${uuid}` `` ids minted by
`addChecklistItem`. -/
inductive ItemId where
  | tpl (date : String) (idx : Nat) (nonce : Nat)
  | added (date : String) (nonce : Nat)
deriving Repr, DecidableEq

structure ChecklistItem where
  id : ItemId
  text : String
  done : Bool
deriving Repr, DecidableEq

structure Entry where
  date : String
  weight : String
  meals : Meals
  checklist : List ChecklistItem
deriving Repr, DecidableEq

structure Settings where
  goalWeight : Nat
  weeklyMusic : List (String × String)
  templates : List (String × List String)
deriving Repr, DecidableEq

structure AppState where
  entries : List (String × Entry)
  settings : Settings
deriving Repr, DecidableEq

/-- `defaultSettings`. -/
def defaultSettings : Settings :=
  { goalWeight := 60
    weeklyMusic :=
      [("月", ""), ("火", ""), ("水", ""), ("木", ""), ("金", ""),
       ("土", ""), ("日", "")]
    templates :=
      [("月", ["肩回しストレッチ 1分", "壁プッシュアップ 15回×2", "肩甲骨寄せ 15回×2"]),
       ("火", ["スクワット 15回×2", "カーフレイズ 20回×2", "股関節ストレッチ 1分"]),
       ("水", ["プランク 20秒×3", "サイドプランク 各15秒×2", "キャットカウ"]),
       ("木", ["タオル肩回し 10回×2", "スーパーマン 10回×2", "肩甲骨寄せ 15回×2"]),
       ("金", ["スクワット 15回", "膝つき腕立て 10回", "マウンテンクライマー 20回"]),
       ("土", ["その場足踏み 2〜3分×2", "腕振り大きく 1分"]),
       ("日", ["全身ストレッチ 10分", "深呼吸 1分"])] }

/-- `tpl.map((t, i) => ({ id: ..., text: t, done: false }))`, index-aware;
`gen i` is the `Date.now()`/`Math.random()` nonce drawn for item `i`. -/
def buildChecklist (dateStr : String) (gen : Nat → Nat) :
    Nat → List String → List ChecklistItem
  | _, [] => []
  | i, t :: rest =>
    { id := ItemId.tpl dateStr i (gen i), text := t, done := false } ::
      buildChecklist dateStr gen (i + 1) rest

/-- `buildEntry(dateStr, settings)`; `settings.templates[w] || []` is the
lookup with absent keys giving the empty list. -/
def buildEntry (dateStr : String) (settings : Settings) (gen : Nat → Nat) :
    Entry :=
  let w := weekdayStr dateStr
  let tpl := (getKey settings.templates w).getD []
  { date := dateStr
    weight := ""
    meals := blankMeals
    checklist := buildChecklist dateStr gen 0 tpl }

/-- `ensureEntry(state, dateStr)`: create the entry only when absent. -/
def ensureEntry (state : AppState) (dateStr : String) (gen : Nat → Nat) :
    AppState :=
  match getKey state.entries dateStr with
  | some _ => state
  | none =>
    { state with
        entries := setKey state.entries dateStr (buildEntry dateStr state.settings gen) }

/-! ## State-store mutation operations -/

/-- `Partial<Entry>`: the fields an `updateEntry` call overrides. -/
structure EntryDelta where
  date : Option String := none
  weight : Option String := none
  meals : Option Meals := none
  checklist : Option (List ChecklistItem) := none

/-- `{ ...entry, ...partialFields }`. -/
def applyDelta (p : EntryDelta) (e : Entry) : Entry :=
  { date := p.date.getD e.date
    weight := p.weight.getD e.weight
    meals := p.meals.getD e.meals
    checklist := p.checklist.getD e.checklist }

/-- `updateEntry(partial)` for the selected date. -/
def updateEntry (st : AppState) (dateStr : String) (p : EntryDelta)
    (gen : Nat → Nat) : AppState :=
  let c := ensureEntry st dateStr gen
  { c with entries := modifyKey c.entries dateStr (fun e => applyDelta p e) }

inductive MealField where
  | breakfast | lunch | dinner | notes
deriving Repr, DecidableEq

def setMeal (m : Meals) : MealField → String → Meals
  | .breakfast, v => { m with breakfast := v }
  | .lunch, v => { m with lunch := v }
  | .dinner, v => { m with dinner := v }
  | .notes, v => { m with notes := v }

/-- `updateMeals(k, v)`: reads the current entry's meals (blank when the
entry does not exist yet) and delegates to `updateEntry`. -/
def updateMeals (st : AppState) (dateStr : String) (k : MealField) (v : String)
    (gen : Nat → Nat) : AppState :=
  let meals :=
    match getKey st.entries dateStr with
    | some e => e.meals
    | none => blankMeals
  updateEntry st dateStr { meals := some (setMeal meals k v) } gen

/-- `toggleChecklist(id)`: early-returns when the entry does not exist. -/
def toggleChecklist (st : AppState) (dateStr : String) (id : ItemId)
    (gen : Nat → Nat) : AppState :=
  match getKey st.entries dateStr with
  | none => st
  | some e =>
    updateEntry st dateStr
      { checklist := some (e.checklist.map (fun c =>
          if c.id = id then { c with done := !c.done } else c)) } gen

/-- `addChecklistItem()`: trims the prompted text, rejects blank input,
otherwise ensures the entry and appends one fresh item whose id carries a
fresh `crypto.randomUUID()`/`Math.random()` nonce. -/
def addChecklistItem (st : AppState) (dateStr : String) (raw : String)
    (nonce : Nat) (gen : Nat → Nat) : AppState :=
  let text := jsTrim raw
  if text = "" then st
  else
    let c := ensureEntry st dateStr gen
    { c with
        entries := modifyKey c.entries dateStr (fun e =>
          { e with
              checklist :=
                e.checklist ++ [{ id := ItemId.added dateStr nonce, text := text, done := false }] }) }

/-- `removeChecklistItem(id)`: ensures the entry and filters the id out. -/
def removeChecklistItem (st : AppState) (dateStr : String) (id : ItemId)
    (gen : Nat → Nat) : AppState :=
  let c := ensureEntry st dateStr gen
  { c with
      entries := modifyKey c.entries dateStr (fun e =>
        { e with checklist := e.checklist.filter (fun x => x.id ≠ id) }) }

/-- `setWeeklyMusic(weekday, rawUrl)`: trim, clear on blank, otherwise
store the normalized URL under that weekday key. -/
def setWeeklyMusic (st : AppState) (weekday : String) (rawUrl : String) :
    AppState :=
  let trimmed := jsTrim rawUrl
  let fixed := if trimmed = "" then "" else normalizeMediaUrl trimmed
  { st with
      settings :=
        { st.settings with
            weeklyMusic := setKey st.settings.weeklyMusic weekday fixed } }

/-- `WeekTemplateEditor.updateList`: replace the selected weekday's
template list. -/
def updateList (s : Settings) (day : String) (next : List String) : Settings :=
  { s with templates := setKey s.templates day next }

/-! ## Service-worker collaborator (`public/sw.js`) and `precacheTodayMusic` -/

/-- The shape of a `postMessage` payload exchanged with the service
worker: a `type` tag plus the optional `url` / `urls` fields the two sides
use. -/
structure SwMessage where
  type : String
  url : Option String := none
  urls : Option (List String) := none
deriving Repr, DecidableEq

/-- The message `precacheTodayMusic` posts for a media URL
(`{ type: "CACHE_URL", url }`). -/
def precacheMessage (url : String) : SwMessage :=
  { type := "CACHE_URL", url := some url }

/-- The `sw.js` message listener: acts only on `type === 'CACHE_URLS'`,
caching `event.data.urls`; the result is the list of URLs it caches
(empty when the message is ignored). -/
def swHandleMessage (data : Option SwMessage) : List String :=
  match data with
  | none => []
  | some m => if m.type = "CACHE_URLS" then m.urls.getD [] else []

/-! ## Persistence (`loadData`, `importJSON`); `JSON.parse` and
`localStorage` are abstracted as explicit parameters. -/

/-- A minimal JSON value model, enough to express that `JSON.parse` can
successfully yield `null` (used to settle the `loadData` claim). -/
inductive Json where
  | null
  | str (s : String)
  | obj (fields : List (String × Json))

/-- `importJSON`: parse the whole file text; on success install the parsed
value verbatim, on failure keep the current state and surface a
user-visible error (`alert`), reported here as the `Bool` component. -/
def importJSON {α : Type u} (parse : String → Option α) (current : α)
    (fileText : String) : α × Bool :=
  match parse fileText with
  | some v => (v, false)
  | none => (current, true)

/-- `loadData`: `raw ? JSON.parse(raw) : defaults` inside `try`; the
stored record is `none` when the key is absent, and a raw string is falsy
exactly when empty; `parse` returning `none` models `JSON.parse`
throwing. -/
def loadData {α : Type u} (stored : Option String) (parse : String → Option α)
    (defaultState : α) : α :=
  match stored with
  | none => defaultState
  | some raw =>
    if raw = "" then defaultState
    else
      match parse raw with
      | some v => v
      | none => defaultState

/-! ## Lemmas about `buildChecklist` -/

theorem buildChecklist_length (d : String) (g : Nat → Nat) (i : Nat)
    (l : List String) : (buildChecklist d g i l).length = l.length := by
  induction l generalizing i with
  | nil => rfl
  | cons t rest ih => simp [buildChecklist, ih]

theorem buildChecklist_map_text (d : String) (g : Nat → Nat) (i : Nat)
    (l : List String) :
    (buildChecklist d g i l).map (fun c => c.text) = l := by
  induction l generalizing i with
  | nil => rfl
  | cons t rest ih => simp [buildChecklist, ih]

theorem done_false_of_mem_buildChecklist (d : String) (g : Nat → Nat) (i : Nat)
    (l : List String) (c : ChecklistItem) (hc : c ∈ buildChecklist d g i l) :
    c.done = false := by
  induction l generalizing i with
  | nil => simp [buildChecklist] at hc
  | cons t rest ih =>
    simp only [buildChecklist, List.mem_cons] at hc
    cases hc with
    | inl h => rw [h]
    | inr h => exact ih _ h

theorem id_shape_of_mem_buildChecklist (d : String) (g : Nat → Nat) (i : Nat)
    (l : List String) (a : ItemId)
    (ha : a ∈ (buildChecklist d g i l).map (fun c => c.id)) :
    ∃ j, a = ItemId.tpl d j (g j) := by
  induction l generalizing i with
  | nil => simp [buildChecklist] at ha
  | cons t rest ih =>
    simp only [buildChecklist, List.map_cons, List.mem_cons] at ha
    cases ha with
    | inl h => exact ⟨i, h⟩
    | inr h => exact ih _ h

/-- C2: for every date key `d` and settings `s`, `buildEntry d s` has a
checklist exactly as long as the weekday's template (empty when the
template is absent), every item unchecked, the given date, blank weight
and blank meals. -/
theorem buildEntry_spec (d : String) (s : Settings) (gen : Nat → Nat) :
    (buildEntry d s gen).checklist.length =
      ((getKey s.templates (weekdayStr d)).getD []).length
    ∧ (∀ c ∈ (buildEntry d s gen).checklist, c.done = false)
    ∧ (buildEntry d s gen).date = d
    ∧ (buildEntry d s gen).weight = ""
    ∧ (buildEntry d s gen).meals = blankMeals := by
  refine ⟨?_, ?_, rfl, rfl, rfl⟩
  · exact buildChecklist_length d gen 0 _
  · intro c hc
    exact done_false_of_mem_buildChecklist d gen 0 _ c hc

/-- Witness for C2 at a concrete Monday and the default settings. -/
theorem buildEntry_spec_witness :
    (buildEntry "2025-09-08" defaultSettings (fun i => i)).checklist.length =
      ((getKey defaultSettings.templates (weekdayStr "2025-09-08")).getD []).length
    ∧ ({ id := ItemId.tpl "2025-09-08" 0 0, text := "肩回しストレッチ 1分",
          done := false } : ChecklistItem).done = false :=
  ⟨(buildEntry_spec "2025-09-08" defaultSettings (fun i => i)).1,
   (buildEntry_spec "2025-09-08" defaultSettings (fun i => i)).2.1 _ (by decide)⟩

/-- C3: two builds of the same date and settings agree on the ordered text
sequence, and — as long as the timestamp/randomness nonce supply never
repeats a draw across the two calls — mint fully disjoint identifier
sets. -/
theorem buildEntry_fresh_ids (d : String) (s : Settings) (g₁ g₂ : Nat → Nat)
    (h : ∀ i j, g₁ i ≠ g₂ j) :
    (buildEntry d s g₁).checklist.map (fun c => c.text) =
      (buildEntry d s g₂).checklist.map (fun c => c.text)
    ∧ ∀ a, a ∈ (buildEntry d s g₁).checklist.map (fun c => c.id) →
        a ∉ (buildEntry d s g₂).checklist.map (fun c => c.id) := by
  constructor
  · rw [show (buildEntry d s g₁).checklist = buildChecklist d g₁ 0 _ from rfl,
      show (buildEntry d s g₂).checklist = buildChecklist d g₂ 0 _ from rfl,
      buildChecklist_map_text, buildChecklist_map_text]
  · intro a h₁ h₂
    obtain ⟨j₁, hj₁⟩ := id_shape_of_mem_buildChecklist d g₁ 0 _ a h₁
    obtain ⟨j₂, hj₂⟩ := id_shape_of_mem_buildChecklist d g₂ 0 _ a h₂
    rw [hj₁] at hj₂
    injection hj₂ with _ _ hnonce
    exact h j₁ j₂ hnonce

/-- Witness for C3: with even nonces against odd nonces, the first id of
the first build never occurs among the second build's ids. -/
theorem buildEntry_fresh_ids_witness :
    ItemId.tpl "2025-09-08" 0 0 ∉
      (buildEntry "2025-09-08" defaultSettings (fun i => 2 * i + 1)).checklist.map
        (fun c => c.id) :=
  (buildEntry_fresh_ids "2025-09-08" defaultSettings (fun i => 2 * i)
      (fun i => 2 * i + 1) (fun i j => by show 2 * i ≠ 2 * j + 1; omega)).2 _
    (by decide)

/-! ## `ensureEntry` reconciliation -/

theorem ensureEntry_noop (st : AppState) (d : String) (g : Nat → Nat)
    (e : Entry) (h : getKey st.entries d = some e) : ensureEntry st d g = st := by
  simp [ensureEntry, h]

theorem getKey_ensureEntry_self (st : AppState) (d : String) (g : Nat → Nat) :
    ∃ e, getKey (ensureEntry st d g).entries d = some e := by
  cases h : getKey st.entries d with
  | some e => exact ⟨e, by simp [ensureEntry, h]⟩
  | none =>
    exact ⟨buildEntry d st.settings g, by
      simp [ensureEntry, h, getKey_setKey_self]⟩

/-- An arbitrary overwrite of the entry stored for `d`, modelling any field
edit (`copy.entries[dateStr] = ...`) performed between two `ensureEntry`
applications. -/
def setEntry (st : AppState) (d : String) (e : Entry) : AppState :=
  { st with entries := setKey st.entries d e }

/-- C1: `ensureEntry` is a no-op whenever an entry for `d` exists; hence
applying it twice equals applying it once, and an entry mutated between
the two applications survives the second application unchanged. -/
theorem ensureEntry_idempotent (st : AppState) (d : String)
    (g₁ g₂ g₃ : Nat → Nat) (e' : Entry) :
    ((∃ e, getKey st.entries d = some e) → ensureEntry st d g₁ = st)
    ∧ ensureEntry (ensureEntry st d g₁) d g₂ = ensureEntry st d g₁
    ∧ ensureEntry (setEntry (ensureEntry st d g₁) d e') d g₃ =
        setEntry (ensureEntry st d g₁) d e' := by
  refine ⟨fun ⟨e, he⟩ => ensureEntry_noop st d g₁ e he, ?_, ?_⟩
  · obtain ⟨e, he⟩ := getKey_ensureEntry_self st d g₁
    exact ensureEntry_noop _ d g₂ e he
  · exact ensureEntry_noop _ d g₃ e' (getKey_setKey_self _ d e')

/-- A state with no entries and the default settings (the freshly loaded
state of a new profile). -/
def emptyState : AppState :=
  { entries := [], settings := defaultSettings }

/-- A concrete already-present entry used by the C1 witness. -/
def weighedEntry : Entry :=
  { date := "2025-09-08", weight := "63.5", meals := blankMeals, checklist := [] }

/-- Witness for C1: with an entry already stored for the date, a further
`ensureEntry` leaves the state untouched. -/
theorem ensureEntry_idempotent_witness :
    ensureEntry { entries := [("2025-09-08", weighedEntry)], settings := defaultSettings }
      "2025-09-08" (fun i => i) =
      { entries := [("2025-09-08", weighedEntry)], settings := defaultSettings } :=
  (ensureEntry_idempotent
      { entries := [("2025-09-08", weighedEntry)], settings := defaultSettings }
      "2025-09-08" (fun i => i) (fun i => i) (fun i => i) weighedEntry).1
    ⟨weighedEntry, by decide⟩

/-! ## C4: which mutation operations create a missing entry -/

/-- C4 counterexample: on a state with no entry for the date,
`toggleChecklist` does not create one — after invoking it the entry is
still absent, refuting the claim that every listed field-mutation
operation applies `ensureEntry` first. -/
theorem toggleChecklist_does_not_create :
    getKey ((toggleChecklist emptyState "2025-09-08"
        (ItemId.added "2025-09-08" 0) (fun i => i)).entries) "2025-09-08" = none := by
  rfl

/-- C4 (amended): on a state with no entry for `d`, `updateEntry`,
`updateMeals`, `addChecklistItem` (with non-blank text) and
`removeChecklistItem` each create the entry (factory-built from the
current settings) and then apply their one localized change, while
`toggleChecklist` is a no-op. -/
theorem mutation_ops_ensure_entry (st : AppState) (d : String) (p : EntryDelta)
    (k : MealField) (v raw : String) (nonce : Nat) (id : ItemId)
    (g : Nat → Nat) (h : getKey st.entries d = none) (hraw : jsTrim raw ≠ "") :
    getKey (updateEntry st d p g).entries d =
      some (applyDelta p (buildEntry d st.settings g))
    ∧ getKey (updateMeals st d k v g).entries d =
        some (applyDelta { meals := some (setMeal blankMeals k v) }
          (buildEntry d st.settings g))
    ∧ getKey (addChecklistItem st d raw nonce g).entries d =
        some { buildEntry d st.settings g with
                 checklist := (buildEntry d st.settings g).checklist ++
                   [{ id := ItemId.added d nonce, text := jsTrim raw, done := false }] }
    ∧ getKey (removeChecklistItem st d id g).entries d =
        some { buildEntry d st.settings g with
                 checklist := (buildEntry d st.settings g).checklist.filter
                   (fun x => x.id ≠ id) }
    ∧ toggleChecklist st d id g = st := by
  have hens : (ensureEntry st d g).entries =
      setKey st.entries d (buildEntry d st.settings g) := by
    simp [ensureEntry, h]
  have hget : getKey (ensureEntry st d g).entries d =
      some (buildEntry d st.settings g) := by
    rw [hens]
    exact getKey_setKey_self _ _ _
  refine ⟨?_, ?_, ?_, ?_, ?_⟩
  · exact getKey_modifyKey_self (ensureEntry st d g).entries d
      (fun e => applyDelta p e) (buildEntry d st.settings g) hget
  · simp only [updateMeals, h]
    exact getKey_modifyKey_self (ensureEntry st d g).entries d
      (fun e => applyDelta { meals := some (setMeal blankMeals k v) } e)
      (buildEntry d st.settings g) hget
  · simp only [addChecklistItem, if_neg hraw]
    exact getKey_modifyKey_self (ensureEntry st d g).entries d
      (fun e => { e with checklist := e.checklist ++
        [{ id := ItemId.added d nonce, text := jsTrim raw, done := false }] })
      (buildEntry d st.settings g) hget
  · exact getKey_modifyKey_self (ensureEntry st d g).entries d
      (fun e => { e with checklist := e.checklist.filter (fun x => x.id ≠ id) })
      (buildEntry d st.settings g) hget
  · simp [toggleChecklist, h]

/-- Witness for C4 (amended), exercising the `toggleChecklist`-is-a-no-op
conjunct on the concrete empty state. -/
theorem mutation_ops_ensure_entry_witness :
    toggleChecklist emptyState "2025-09-08" (ItemId.added "2025-09-08" 1)
      (fun i => i) = emptyState :=
  (mutation_ops_ensure_entry emptyState "2025-09-08" {} MealField.breakfast
      "x" "item" 0 (ItemId.added "2025-09-08" 1) (fun i => i) rfl
      (by decide)).2.2.2.2

/-! ## C8: the seven-weekday-key invariant -/

/-- The seven weekday keys in the order the default settings list them. -/
def weekdayKeys : List String := ["月", "火", "水", "木", "金", "土", "日"]

/-- C8: the default settings carry exactly the seven weekday keys in both
maps, and both Settings mutations (setting a weekday's music URL, editing
a weekday's template) preserve exactly those keys. -/
theorem seven_weekday_invariant (st : AppState) (d url day : String)
    (next : List String) (hd : d ∈ weekdayKeys) (hday : day ∈ weekdayKeys)
    (h1 : keysOf st.settings.weeklyMusic = weekdayKeys)
    (h2 : keysOf st.settings.templates = weekdayKeys) :
    keysOf defaultSettings.weeklyMusic = weekdayKeys
    ∧ keysOf defaultSettings.templates = weekdayKeys
    ∧ keysOf (setWeeklyMusic st d url).settings.weeklyMusic = weekdayKeys
    ∧ keysOf (setWeeklyMusic st d url).settings.templates = weekdayKeys
    ∧ keysOf (updateList st.settings day next).weeklyMusic = weekdayKeys
    ∧ keysOf (updateList st.settings day next).templates = weekdayKeys := by
  have hmus : hasKey st.settings.weeklyMusic d = true := by
    rw [hasKey_iff_mem_keysOf, h1]
    exact hd
  have htpl : hasKey st.settings.templates day = true := by
    rw [hasKey_iff_mem_keysOf, h2]
    exact hday
  refine ⟨rfl, rfl, ?_, h2, h1, ?_⟩
  · show keysOf (setKey st.settings.weeklyMusic d _) = weekdayKeys
    rw [keysOf_setKey_of_hasKey _ _ _ hmus, h1]
  · show keysOf (setKey st.settings.templates day next) = weekdayKeys
    rw [keysOf_setKey_of_hasKey _ _ _ htpl, h2]

/-- Witness for C8 at the freshly loaded default state. -/
theorem seven_weekday_invariant_witness :
    keysOf (setWeeklyMusic emptyState "月" "https://example.com/t.mp3").settings.weeklyMusic =
      weekdayKeys :=
  (seven_weekday_invariant emptyState "月" "https://example.com/t.mp3" "火"
      ["スクワット 15回"] (by decide) (by decide) rfl rfl).2.2.1

/-! ## C5: the precache message versus the service-worker handler -/

/-- C5 (code evaluation): the `{ type: "CACHE_URL", url }` message the core
posts is ignored by the `sw.js` listener, which only acts on
`type === 'CACHE_URLS'` — so no URL is ever cached in response. -/
theorem swHandler_ignores_precache (u : String) :
    swHandleMessage (some (precacheMessage u)) = [] := by
  simp [swHandleMessage, precacheMessage]

/-! ## C9: import atomicity -/

/-- C9: importing a file whose contents fail to parse surfaces the error
and leaves the current state untouched; only a successfully parsed value
is installed. -/
theorem importJSON_atomic {α : Type u} (parse : String → Option α) (cur : α)
    (file : String) :
    (parse file = none → importJSON parse cur file = (cur, true))
    ∧ ∀ v, parse file = some v → importJSON parse cur file = (v, false) := by
  constructor
  · intro h
    simp [importJSON, h]
  · intro v h
    simp [importJSON, h]

/-- Witness for C9 with a concrete failing parse. -/
theorem importJSON_atomic_witness :
    importJSON (fun _ => (none : Option Json)) Json.null "not json" =
      (Json.null, true) :=
  (importJSON_atomic (fun _ => (none : Option Json)) Json.null "not json").1 rfl

/-! ## C10: `loadData` performs no shape validation -/

/-- C10: every stored string that parses successfully is returned verbatim
as the state; the defaults are substituted only when the key is absent,
the stored string is empty, or parsing throws. -/
theorem loadData_no_validation {α : Type u} (stored : Option String)
    (parse : String → Option α) (dflt : α) :
    (∀ s v, stored = some s → s ≠ "" → parse s = some v →
      loadData stored parse dflt = v)
    ∧ (stored = none → loadData stored parse dflt = dflt)
    ∧ (stored = some "" → loadData stored parse dflt = dflt)
    ∧ (∀ s, stored = some s → parse s = none →
        loadData stored parse dflt = dflt) := by
  refine ⟨?_, ?_, ?_, ?_⟩
  · intro s v hs hne hp
    simp [loadData, hs, hne, hp]
  · intro hs
    simp [loadData, hs]
  · intro hs
    simp [loadData, hs]
  · intro s hs hp
    subst hs
    by_cases hne : s = ""
    · simp [loadData, hne]
    · simp [loadData, hne, hp]

/-- Witness for C10: a stored literal `"null"` parses successfully and is
returned verbatim — a null state, not the defaults. -/
theorem loadData_no_validation_witness :
    loadData (some "null")
      (fun s => if s = "null" then some Json.null else none) (Json.obj []) =
      Json.null :=
  (loadData_no_validation (some "null")
      (fun s => if s = "null" then some Json.null else none) (Json.obj [])).1
    "null" Json.null rfl (by decide) (by simp)

/-! ## C6 / C7: `normalizeMediaUrl` scenarios and idempotence -/

def dropboxShareExample : String := "https://www.dropbox.com/s/abc/mon.mp3?dl=0"

def driveShareExample : String :=
  "https://drive.google.com/file/d/FILEID/view?usp=sharing"

def plainAbsoluteExample : String := "https://example.com/t.mp3"

/-- C7: the Dropbox share link normalizes to an output containing `dl=1`
or `raw=1`; the Google Drive share link normalizes to the direct-download
form containing `id=FILEID`; the empty string stays empty; the relative
path `/audio/mon.mp3` is returned unchanged. -/
theorem normalizeMediaUrl_scenarios :
    (containsSub "dl=1" (normalizeMediaUrl dropboxShareExample)
      || containsSub "raw=1" (normalizeMediaUrl dropboxShareExample)) = true
    ∧ normalizeMediaUrl driveShareExample =
        "https://drive.google.com/uc?export=download&id=FILEID"
    ∧ containsSub "id=FILEID" (normalizeMediaUrl driveShareExample) = true
    ∧ normalizeMediaUrl "" = ""
    ∧ normalizeMediaUrl "/audio/mon.mp3" = "/audio/mon.mp3" := by
  decide

/-! ## Facts about `Char.toLower` and `jsToLower` -/

theorem char_toNat_ofNat {n : Nat} (h : n.isValidChar) : (Char.ofNat n).toNat = n := by
  rw [Char.ofNat, dif_pos h]
  simp [Char.ofNatAux, Char.toNat, UInt32.toNat]

theorem toLower_eq_ite (c : Char) :
    Char.toLower c =
      if c.toNat ≥ 65 ∧ c.toNat ≤ 90 then Char.ofNat (c.toNat + 32) else c := rfl

/-- `Char.toLower` either keeps a character or yields a basic lowercase
latin letter. -/
theorem toLower_spec (c : Char) :
    (Char.toLower c = c) ∨
      (97 ≤ (Char.toLower c).toNat ∧ (Char.toLower c).toNat ≤ 122) := by
  by_cases h : c.toNat ≥ 65 ∧ c.toNat ≤ 90
  · right
    have hv : (c.toNat + 32).isValidChar := Or.inl (by omega)
    rw [toLower_eq_ite, if_pos h, char_toNat_ofNat hv]
    omega
  · left
    rw [toLower_eq_ite, if_neg h]

theorem toLower_idem (c : Char) :
    Char.toLower (Char.toLower c) = Char.toLower c := by
  by_cases h : c.toNat ≥ 65 ∧ c.toNat ≤ 90
  · have hv : (c.toNat + 32).isValidChar := Or.inl (by omega)
    have h2 : (Char.toLower c).toNat = c.toNat + 32 := by
      rw [toLower_eq_ite, if_pos h, char_toNat_ofNat hv]
    have h3 : ¬((Char.toLower c).toNat ≥ 65 ∧ (Char.toLower c).toNat ≤ 90) := by
      rw [h2]; omega
    rw [toLower_eq_ite (Char.toLower c), if_neg h3]
  · have h1 : Char.toLower c = c := by rw [toLower_eq_ite, if_neg h]
    rw [h1, h1]

theorem jsToLower_idem (s : String) : jsToLower (jsToLower s) = jsToLower s := by
  unfold jsToLower
  rw [show (String.mk (s.data.map Char.toLower)).data = s.data.map Char.toLower from rfl,
    List.map_map]
  apply congrArg
  apply List.map_congr_left
  intro c _
  exact toLower_idem c

/-- A lowercase basic latin letter is none of the URL delimiter or
whitespace characters this development tracks. -/
theorem lower_letter_clear {c : Char} (h1 : 97 ≤ c.toNat) (_h2 : c.toNat ≤ 122) :
    c ≠ '/' ∧ c ≠ '?' ∧ c ≠ ' ' ∧ c ≠ '&' ∧ c ≠ '=' ∧ isJsWs c = false := by
  refine ⟨?_, ?_, ?_, ?_, ?_, ?_⟩
  · intro he; rw [he] at h1; revert h1; decide
  · intro he; rw [he] at h1; revert h1; decide
  · intro he; rw [he] at h1; revert h1; decide
  · intro he; rw [he] at h1; revert h1; decide
  · intro he; rw [he] at h1; revert h1; decide
  · unfold isJsWs
    simp only [Bool.or_eq_false_iff]
    refine ⟨⟨⟨?_, ?_⟩, ?_⟩, ?_⟩ <;>
      · rw [beq_eq_false_iff_ne]
        intro he; rw [he] at h1; revert h1; decide

/-! ## Splitting lemmas for `breakAt`, `splitOnChar`, `findSub` -/

theorem breakAt_not_mem {c : Char} {l : List Char} (h : c ∉ l) :
    breakAt c l = (l, none) := by
  induction l with
  | nil => rfl
  | cons x xs ih =>
    have hx : x ≠ c := fun he => h (he ▸ List.mem_cons_self x xs)
    have hxs : c ∉ xs := fun hm => h (List.mem_cons_of_mem x hm)
    simp [breakAt, hx, ih hxs]

theorem breakAt_append {c : Char} {l₁ l₂ : List Char} (h : c ∉ l₁) :
    breakAt c (l₁ ++ c :: l₂) = (l₁, some l₂) := by
  induction l₁ with
  | nil => simp [breakAt]
  | cons x xs ih =>
    have hx : x ≠ c := fun he => h (he ▸ List.mem_cons_self x xs)
    have hxs : c ∉ xs := fun hm => h (List.mem_cons_of_mem x hm)
    simp [breakAt, hx, ih hxs]

theorem splitOnChar_ne_nil (c : Char) (l : List Char) : splitOnChar c l ≠ [] := by
  cases l with
  | nil => simp [splitOnChar]
  | cons x xs =>
    by_cases hx : x = c
    · simp [splitOnChar, hx]
    · simp only [splitOnChar, hx, if_false]
      cases splitOnChar c xs <;> simp

theorem splitOnChar_not_mem {c : Char} {l : List Char} (h : c ∉ l) :
    splitOnChar c l = [l] := by
  induction l with
  | nil => rfl
  | cons x xs ih =>
    have hx : x ≠ c := fun he => h (he ▸ List.mem_cons_self x xs)
    have hxs : c ∉ xs := fun hm => h (List.mem_cons_of_mem x hm)
    simp [splitOnChar, hx, ih hxs]

theorem splitOnChar_append {c : Char} {l₁ l₂ : List Char} (h : c ∉ l₁) :
    splitOnChar c (l₁ ++ c :: l₂) = l₁ :: splitOnChar c l₂ := by
  induction l₁ with
  | nil => simp [splitOnChar]
  | cons x xs ih =>
    have hx : x ≠ c := fun he => h (he ▸ List.mem_cons_self x xs)
    have hxs : c ∉ xs := fun hm => h (List.mem_cons_of_mem x hm)
    rw [List.cons_append]
    simp only [splitOnChar, hx, if_false, ih hxs]

theorem mem_of_mem_splitOnChar {c : Char} {l seg : List Char}
    (hseg : seg ∈ splitOnChar c l) : ∀ a ∈ seg, a ∈ l := by
  induction l generalizing seg with
  | nil =>
    simp [splitOnChar] at hseg
    simp [hseg]
  | cons x xs ih =>
    by_cases hx : x = c
    · simp only [splitOnChar, hx, if_true, List.mem_cons] at hseg
      cases hseg with
      | inl h => simp [h]
      | inr h => exact fun a ha => List.mem_cons_of_mem _ (ih h a ha)
    · simp only [splitOnChar, hx, if_false] at hseg
      cases hr : splitOnChar c xs with
      | nil => exact absurd hr (splitOnChar_ne_nil c xs)
      | cons hd tl =>
        rw [hr] at hseg
        simp only [List.mem_cons] at hseg
        cases hseg with
        | inl h =>
          subst h
          intro a ha
          rcases List.mem_cons.mp ha with h | h
          · simp [h]
          · exact List.mem_cons_of_mem _ (ih (hr ▸ List.mem_cons_self hd tl) a h)
        | inr h =>
          exact fun a ha =>
            List.mem_cons_of_mem _ (ih (hr ▸ List.mem_cons_of_mem hd h) a ha)

theorem not_mem_of_mem_splitOnChar {c : Char} {l seg : List Char}
    (hseg : seg ∈ splitOnChar c l) : c ∉ seg := by
  induction l generalizing seg with
  | nil =>
    simp [splitOnChar] at hseg
    simp [hseg]
  | cons x xs ih =>
    by_cases hx : x = c
    · simp only [splitOnChar, hx, if_true, List.mem_cons] at hseg
      cases hseg with
      | inl h => simp [h]
      | inr h => exact ih h
    · simp only [splitOnChar, hx, if_false] at hseg
      cases hr : splitOnChar c xs with
      | nil => exact absurd hr (splitOnChar_ne_nil c xs)
      | cons hd tl =>
        rw [hr] at hseg
        simp only [List.mem_cons] at hseg
        cases hseg with
        | inl h =>
          subst h
          intro hmem
          rcases List.mem_cons.mp hmem with h | h
          · exact hx h.symm
          · exact ih (hr ▸ List.mem_cons_self hd tl) h
        | inr h => exact ih (hr ▸ List.mem_cons_of_mem hd h)

theorem breakAt_fst_mem {c : Char} {l : List Char} :
    ∀ a ∈ (breakAt c l).1, a ∈ l ∧ a ≠ c := by
  induction l with
  | nil => simp [breakAt]
  | cons x xs ih =>
    by_cases hx : x = c
    · simp [breakAt, hx]
    · simp only [breakAt, hx, if_false]
      intro a ha
      rcases List.mem_cons.mp ha with h | h
      · exact ⟨h ▸ List.mem_cons_self x xs, h ▸ hx⟩
      · exact ⟨List.mem_cons_of_mem _ (ih a h).1, (ih a h).2⟩

theorem breakAt_snd_mem {c : Char} {l r : List Char}
    (hr : (breakAt c l).2 = some r) : ∀ a ∈ r, a ∈ l := by
  induction l generalizing r with
  | nil => simp [breakAt] at hr
  | cons x xs ih =>
    by_cases hx : x = c
    · simp only [breakAt, hx, if_true] at hr
      cases hr
      exact fun a ha => List.mem_cons_of_mem _ ha
    · simp only [breakAt, hx, if_false] at hr
      exact fun a ha => List.mem_cons_of_mem _ (ih hr a ha)

theorem mem_of_mem_findSub {pat l r : List Char}
    (hr : findSub pat l = some r) : ∀ a ∈ r, a ∈ l := by
  induction l generalizing r with
  | nil =>
    simp only [findSub] at hr
    split at hr
    · cases hr; simp
    · cases hr
  | cons x xs ih =>
    simp only [findSub] at hr
    split at hr
    · cases hr
      exact fun a ha => List.drop_subset _ _ ha
    · exact fun a ha => List.mem_cons_of_mem _ (ih hr a ha)

/-! ## Well-formedness invariants of parsed URLs -/

/-- A host character: not a delimiter, not a space, not whitespace. -/
def GoodHostChar (c : Char) : Prop :=
  c ≠ '/' ∧ c ≠ '?' ∧ c ≠ ' ' ∧ isJsWs c = false

/-- A query key never contains `&`, `=` or whitespace. -/
def GoodKey (k : String) : Prop :=
  ∀ c ∈ k.data, c ≠ '&' ∧ c ≠ '=' ∧ isJsWs c = false

/-- A query value never contains `&` or whitespace. -/
def GoodVal (v : String) : Prop :=
  ∀ c ∈ v.data, c ≠ '&' ∧ isJsWs c = false

/-- The invariants every `UrlModel` produced by `parseUrl` on a
whitespace-free input enjoys, and that `serializeUrl` round-trips. -/
structure GoodUrl (u : UrlModel) : Prop where
  scheme_ok : u.scheme = "https" ∨ u.scheme = "http"
  host_ne : u.host.data ≠ []
  host_ok : ∀ c ∈ u.host.data, GoodHostChar c
  host_lower : jsToLower u.host = u.host
  path_shape : ∃ rest, u.path.data = '/' :: rest
  path_ok : ∀ c ∈ u.path.data, c ≠ '?' ∧ isJsWs c = false
  params_ok : ∀ p ∈ u.params, GoodKey p.1 ∧ GoodVal p.2

theorem GoodHostChar.toLower {c : Char} (h : GoodHostChar c) :
    GoodHostChar (Char.toLower c) := by
  rcases toLower_spec c with he | ⟨h1, h2⟩
  · rw [he]; exact h
  · obtain ⟨n1, n2, n3, _, _, n6⟩ := lower_letter_clear h1 h2
    exact ⟨n1, n2, n3, n6⟩

/-! ## Whitespace-free strings are `jsTrim`-stable -/

theorem dropWhile_eq_self_of_all_false {p : Char → Bool} {l : List Char}
    (h : ∀ c ∈ l, p c = false) : List.dropWhile p l = l := by
  cases l with
  | nil => rfl
  | cons x xs => simp [List.dropWhile, h x (List.mem_cons_self x xs)]

theorem trimChars_of_noWs {l : List Char} (h : ∀ c ∈ l, isJsWs c = false) :
    trimChars l = l := by
  unfold trimChars List.rdropWhile
  rw [dropWhile_eq_self_of_all_false h,
    dropWhile_eq_self_of_all_false (fun c hc => h c (List.mem_reverse.mp hc))]
  exact List.reverse_reverse l

theorem jsTrim_of_noWs {s : String} (h : ∀ c ∈ s.data, isJsWs c = false) :
    jsTrim s = s := by
  unfold jsTrim
  rw [trimChars_of_noWs h]

/-! ## `takeWhile` / `drop` helpers for the host section -/

theorem takeWhile_append_cons {p : Char → Bool} {l₁ l₂ : List Char} {b : Char}
    (h1 : ∀ a ∈ l₁, p a = true) (h2 : p b = false) :
    List.takeWhile p (l₁ ++ b :: l₂) = l₁ := by
  induction l₁ with
  | nil =>
    rw [List.nil_append]
    exact List.takeWhile_cons_of_neg (by simp [h2])
  | cons x xs ih =>
    rw [List.cons_append,
      List.takeWhile_cons_of_pos (h1 x (List.mem_cons_self x xs)),
      ih (fun a ha => h1 a (List.mem_cons_of_mem x ha))]

theorem drop_takeWhile_length (p : Char → Bool) (l : List Char) :
    l.drop (l.takeWhile p).length = l.dropWhile p := by
  nth_rewrite 2 [← @List.takeWhile_append_dropWhile _ p l]
  rw [List.drop_left]

/-! ## `parseQuery` / `joinQuery` round trip -/

theorem parseQuery_good {q : List Char} (hq : ∀ a ∈ q, isJsWs a = false) :
    ∀ p ∈ parseQuery q, GoodKey p.1 ∧ GoodVal p.2 := by
  intro p hp
  unfold parseQuery at hp
  rw [List.mem_filterMap] at hp
  obtain ⟨seg, hseg, hmk⟩ := hp
  by_cases hne : seg = []
  · simp [hne] at hmk
  · simp only [hne, if_false, Option.some.injEq] at hmk
    have hsub : ∀ a ∈ seg, a ∈ q := mem_of_mem_splitOnChar hseg
    have hamp : ('&' : Char) ∉ seg := not_mem_of_mem_splitOnChar hseg
    constructor
    · intro c hc
      rw [← hmk] at hc
      have hc' : c ∈ (breakAt '=' seg).1 := hc
      obtain ⟨hmem, hneq⟩ := breakAt_fst_mem c hc'
      exact ⟨fun he => hamp (he ▸ hmem), hneq, hq c (hsub c hmem)⟩
    · intro c hc
      rw [← hmk] at hc
      cases hsnd : (breakAt '=' seg).2 with
      | none => simp [hsnd] at hc
      | some r =>
        simp only [hsnd, Option.getD_some] at hc
        have hmem : c ∈ seg := breakAt_snd_mem hsnd c hc
        exact ⟨fun he => hamp (he ▸ hmem), hq c (hsub c hmem)⟩

theorem parseQuery_joinQuery {ps : List (String × String)}
    (hps : ∀ p ∈ ps, GoodKey p.1 ∧ GoodVal p.2) (hne : ps ≠ []) :
    parseQuery (joinQuery ps).data = ps := by
  induction ps with
  | nil => exact absurd rfl hne
  | cons p rest ih =>
    obtain ⟨hk, hv⟩ := hps p (List.mem_cons_self p rest)
    have hkamp : ('&' : Char) ∉ p.1.data := fun hm => (hk _ hm).1 rfl
    have hkeq : ('=' : Char) ∉ p.1.data := fun hm => (hk _ hm).2.1 rfl
    have hvamp : ('&' : Char) ∉ p.2.data := fun hm => (hv _ hm).1 rfl
    have hsegamp : ('&' : Char) ∉ p.1.data ++ '=' :: p.2.data := by
      intro hm
      rcases List.mem_append.mp hm with h | h
      · exact hkamp h
      · rcases List.mem_cons.mp h with h | h
        · exact absurd h.symm (by decide)
        · exact hvamp h
    have hsegne : p.1.data ++ '=' :: p.2.data ≠ [] := by
      intro he
      rcases List.append_eq_nil.mp he with ⟨_, h2⟩
      exact List.cons_ne_nil _ _ h2
    have hbreak : breakAt '=' (p.1.data ++ '=' :: p.2.data) =
        (p.1.data, some p.2.data) := breakAt_append hkeq
    cases rest with
    | nil =>
      show parseQuery (p.1 ++ "=" ++ p.2).data = [p]
      have hdata : (p.1 ++ "=" ++ p.2).data = p.1.data ++ '=' :: p.2.data := by
        simp
      rw [hdata]
      unfold parseQuery
      rw [splitOnChar_not_mem hsegamp]
      simp only [List.filterMap, hsegne, if_false, hbreak, Option.getD_some]
    | cons q t =>
      show parseQuery (p.1 ++ "=" ++ p.2 ++ "&" ++ joinQuery (q :: t)).data =
        p :: q :: t
      have hdata : (p.1 ++ "=" ++ p.2 ++ "&" ++ joinQuery (q :: t)).data =
          (p.1.data ++ '=' :: p.2.data) ++ '&' :: (joinQuery (q :: t)).data := by
        simp
      rw [hdata]
      unfold parseQuery
      rw [splitOnChar_append hsegamp]
      simp only [List.filterMap, hsegne, if_false, hbreak, Option.getD_some]
      rw [show String.mk p.1.data = p.1 from String.ext rfl,
        show String.mk p.2.data = p.2 from String.ext rfl]
      have := ih (fun r hr => hps r (List.mem_cons_of_mem p hr))
        (List.cons_ne_nil q t)
      unfold parseQuery at this
      rw [this]

/-! ## Soundness of `parseUrl`: parsed URLs are well-formed -/

theorem mem_takeWhile_pred {p : Char → Bool} {l : List Char} :
    ∀ a ∈ l.takeWhile p, p a = true := by
  induction l with
  | nil => simp [List.takeWhile]
  | cons x xs ih =>
    by_cases hx : p x = true
    · rw [List.takeWhile_cons_of_pos hx]
      intro a ha
      rcases List.mem_cons.mp ha with h | h
      · exact h ▸ hx
      · exact ih a h
    · rw [List.takeWhile_cons_of_neg (by simpa using hx)]
      simp

theorem dropWhile_cons_head_false {p : Char → Bool} {l rest : List Char}
    {a : Char} (h : l.dropWhile p = a :: rest) : p a = false := by
  induction l with
  | nil => simp [List.dropWhile] at h
  | cons x xs ih =>
    rw [List.dropWhile_cons] at h
    split at h
    · exact ih h
    · rename_i hx
      injection h with h1 _
      subst h1
      simpa using hx

theorem parseUrlCore_good {scheme : String} {chars : List Char} {u : UrlModel}
    (hs : scheme = "https" ∨ scheme = "http")
    (hws : ∀ c ∈ chars, isJsWs c = false)
    (hp : parseUrlCore scheme chars = some u) : GoodUrl u := by
  simp only [parseUrlCore] at hp
  split at hp
  · exact absurd hp (by simp)
  · rename_i hcond
    injection hp with hu
    subst hu
    rcases not_or.mp hcond with ⟨hne, hnsp⟩
    have hsub : ∀ c ∈ chars.takeWhile (fun c => c != '/' && c != '?'), c ∈ chars :=
      fun c hc => (List.takeWhile_prefix _).subset hc
    have hnsp' : (' ' : Char) ∉ chars.takeWhile (fun c => c != '/' && c != '?') := by
      intro hm
      exact hnsp (by simp [List.contains, List.elem_eq_mem, hm])
    have hHC : ∀ c ∈ chars.takeWhile (fun c => c != '/' && c != '?'),
        GoodHostChar c := by
      intro c hc
      have hpred := mem_takeWhile_pred c hc
      rw [Bool.and_eq_true, bne_iff_ne, bne_iff_ne] at hpred
      exact ⟨hpred.1, hpred.2, fun he => hnsp' (he ▸ hc), hws c (hsub c hc)⟩
    have hAH : chars.drop (chars.takeWhile (fun c => c != '/' && c != '?')).length =
        chars.dropWhile (fun c => c != '/' && c != '?') :=
      drop_takeWhile_length _ chars
    have hAHsub : ∀ c ∈ chars.dropWhile (fun c => c != '/' && c != '?'), c ∈ chars :=
      fun c hc => List.dropWhile_subset _ hc
    have hshape : ∃ rest,
        (if (breakAt '?' (chars.dropWhile (fun c => c != '/' && c != '?'))).1 = []
          then "/"
          else String.mk
            (breakAt '?' (chars.dropWhile (fun c => c != '/' && c != '?'))).1).data =
          '/' :: rest := by
      cases hah : chars.dropWhile (fun c => c != '/' && c != '?') with
      | nil => exact ⟨[], by simp [breakAt]⟩
      | cons a rest =>
        have hpa : ((a != '/') && (a != '?')) = false := dropWhile_cons_head_false hah
        rw [Bool.and_eq_false_iff] at hpa
        rcases hpa with hpa | hpa
        · have ha : a = '/' := bne_eq_false_iff_eq.mp hpa
          subst ha
          simp only [breakAt]
          rw [if_neg (by decide : ¬('/' : Char) = '?')]
          exact ⟨(breakAt '?' rest).1, by simp⟩
        · have ha : a = '?' := bne_eq_false_iff_eq.mp hpa
          subst ha
          exact ⟨[], by simp [breakAt]⟩
    have hpok : ∀ c ∈
        (if (breakAt '?' (chars.dropWhile (fun c => c != '/' && c != '?'))).1 = []
          then "/"
          else String.mk
            (breakAt '?' (chars.dropWhile (fun c => c != '/' && c != '?'))).1).data,
        c ≠ '?' ∧ isJsWs c = false := by
      by_cases hq :
        (breakAt '?' (chars.dropWhile (fun c => c != '/' && c != '?'))).1 = []
      · rw [if_pos hq]
        intro c hc
        have hcc : c = '/' := by simpa using hc
        subst hcc
        exact ⟨by decide, by decide⟩
      · rw [if_neg hq]
        intro c hc
        obtain ⟨hmem, hneq⟩ := breakAt_fst_mem c hc
        exact ⟨hneq, hws c (hAHsub c hmem)⟩
    have hqok : ∀ p ∈
        (match (breakAt '?' (chars.dropWhile (fun c => c != '/' && c != '?'))).2 with
          | none => []
          | some q => parseQuery q),
        GoodKey p.1 ∧ GoodVal p.2 := by
      cases hsnd :
        (breakAt '?' (chars.dropWhile (fun c => c != '/' && c != '?'))).2 with
      | none => simp
      | some q =>
        exact parseQuery_good (fun a ha =>
          hws a (hAHsub a (breakAt_snd_mem hsnd a ha)))
    rw [← hAH] at hshape hpok hqok
    refine
      { scheme_ok := hs
        host_ne := ?_
        host_ok := ?_
        host_lower := jsToLower_idem _
        path_shape := hshape
        path_ok := hpok
        params_ok := hqok }
    · show List.map Char.toLower
        (chars.takeWhile (fun c => c != '/' && c != '?')) ≠ []
      intro hmap
      exact hne (List.map_eq_nil_iff.mp hmap)
    · show ∀ c ∈ List.map Char.toLower
        (chars.takeWhile (fun c => c != '/' && c != '?')), GoodHostChar c
      intro c hc
      obtain ⟨c₀, hc₀, rfl⟩ := List.mem_map.mp hc
      exact (hHC c₀ hc₀).toLower

theorem parseUrl_good {s : String} {u : UrlModel}
    (hws : ∀ c ∈ s.data, isJsWs c = false) (hp : parseUrl s = some u) :
    GoodUrl u := by
  unfold parseUrl at hp
  split at hp
  · exact parseUrlCore_good (Or.inl rfl)
      (fun c hc => hws c (List.drop_subset _ _ hc)) hp
  · split at hp
    · exact parseUrlCore_good (Or.inr rfl)
        (fun c hc => hws c (List.drop_subset _ _ hc)) hp
    · exact Option.noConfusion hp

/-! ## `serializeUrl` round-trips through `parseUrlCore` -/

theorem parseUrlCore_serialize (u : UrlModel) (hu : GoodUrl u) :
    parseUrlCore u.scheme
      (u.host.data ++ u.path.data ++ (queryString u.params).data) = some u := by
  obtain ⟨rest, hpath⟩ := hu.path_shape
  have hq' : ('?' : Char) ∉ u.path.data := fun hm => (hu.path_ok _ hm).1 rfl
  have hhostpred : ∀ a ∈ u.host.data, ((a != '/') && (a != '?')) = true := by
    intro a ha
    obtain ⟨h1, h2, _, _⟩ := hu.host_ok a ha
    simp [bne_iff_ne, h1, h2]
  have hns : u.host.data.contains ' ' = false := by
    simp only [List.contains, List.elem_eq_mem, decide_eq_false_iff_not]
    intro hm
    exact (hu.host_ok _ hm).2.2.1 rfl
  have hcondneg : ¬(u.host.data = [] ∨ u.host.data.contains ' ' = true) := by
    rw [not_or]
    exact ⟨hu.host_ne, by rw [hns]; simp⟩
  have hlow' : jsToLower (String.mk u.host.data) = u.host := hu.host_lower
  have hpa' : String.mk ('/' :: rest) = u.path := by
    rw [← hpath]
  cases hups : u.params with
  | nil =>
    have hlist : u.host.data ++ u.path.data ++ (queryString []).data =
        u.host.data ++ '/' :: rest := by
      show u.host.data ++ u.path.data ++ ([] : List Char) = _
      rw [List.append_nil, hpath]
    rw [hlist]
    simp only [parseUrlCore]
    rw [takeWhile_append_cons hhostpred (by decide), if_neg hcondneg,
      List.drop_left]
    have hb : breakAt '?' ('/' :: rest) = ('/' :: rest, none) :=
      breakAt_not_mem (by rw [← hpath]; exact hq')
    rw [hb]
    show some (UrlModel.mk u.scheme (jsToLower (String.mk u.host.data))
      (String.mk ('/' :: rest)) []) = some u
    rw [hlow', hpa', ← hups]
  | cons p ps' =>
    have hjq : (queryString (p :: ps')).data =
        '?' :: (joinQuery (p :: ps')).data := by
      show ("?" ++ joinQuery (p :: ps')).data = _
      simp
    have hlist : u.host.data ++ u.path.data ++ (queryString (p :: ps')).data =
        u.host.data ++ '/' :: (rest ++ '?' :: (joinQuery (p :: ps')).data) := by
      rw [hjq, hpath]
      simp
    rw [hlist]
    simp only [parseUrlCore]
    rw [takeWhile_append_cons hhostpred (by decide), if_neg hcondneg,
      List.drop_left]
    have hb : breakAt '?' ('/' :: (rest ++ '?' :: (joinQuery (p :: ps')).data)) =
        ('/' :: rest, some (joinQuery (p :: ps')).data) := by
      have hgrp : ('/' :: rest) ++ '?' :: (joinQuery (p :: ps')).data =
          '/' :: (rest ++ '?' :: (joinQuery (p :: ps')).data) := by simp
      rw [← hgrp]
      exact breakAt_append (by rw [← hpath]; exact hq')
    rw [hb]
    show some (UrlModel.mk u.scheme (jsToLower (String.mk u.host.data))
      (String.mk ('/' :: rest)) (parseQuery (joinQuery (p :: ps')).data)) = some u
    rw [hlow', hpa',
      parseQuery_joinQuery (hups ▸ hu.params_ok) (List.cons_ne_nil p ps'), ← hups]

theorem isPrefixOf_eq_false_of_ne_at (i : Nat) {l₁ l₂ : List Char}
    (h1 : i < l₁.length) (hne : l₁[i]? ≠ l₂[i]?) : l₁.isPrefixOf l₂ = false := by
  rw [Bool.eq_false_iff]
  intro hpre
  rw [List.isPrefixOf_iff_prefix] at hpre
  obtain ⟨t, rfl⟩ := hpre
  exact hne (List.getElem?_append_left h1).symm

/-- `parseUrl` inverts `serializeUrl` on well-formed URL values. -/
theorem parse_serialize (u : UrlModel) (hu : GoodUrl u) :
    parseUrl (serializeUrl u) = some u := by
  rcases hu.scheme_ok with hsc | hsc
  · have hdata : (serializeUrl u).data = "https://".data ++
        (u.host.data ++ u.path.data ++ (queryString u.params).data) := by
      show (u.scheme ++ "://" ++ u.host ++ u.path ++ queryString u.params).data = _
      rw [hsc]
      simp
    have hlowdata : (jsToLower (serializeUrl u)).data = "https://".data ++
        List.map Char.toLower
          (u.host.data ++ u.path.data ++ (queryString u.params).data) := by
      show List.map Char.toLower (serializeUrl u).data = _
      rw [hdata, List.map_append]
      congr 1
    have hpre : strPrefixOf "https://" (jsToLower (serializeUrl u)) = true := by
      show List.isPrefixOf _ _ = true
      rw [hlowdata, List.isPrefixOf_iff_prefix]
      exact List.prefix_append _ _
    unfold parseUrl
    rw [if_pos hpre]
    have hdrop : (serializeUrl u).data.drop 8 =
        u.host.data ++ u.path.data ++ (queryString u.params).data := by
      rw [hdata]
      exact List.drop_left' (by decide)
    rw [hdrop, ← hsc]
    exact parseUrlCore_serialize u hu
  · have hdata : (serializeUrl u).data = "http://".data ++
        (u.host.data ++ u.path.data ++ (queryString u.params).data) := by
      show (u.scheme ++ "://" ++ u.host ++ u.path ++ queryString u.params).data = _
      rw [hsc]
      simp
    have hlowdata : (jsToLower (serializeUrl u)).data = "http://".data ++
        List.map Char.toLower
          (u.host.data ++ u.path.data ++ (queryString u.params).data) := by
      show List.map Char.toLower (serializeUrl u).data = _
      rw [hdata, List.map_append]
      congr 1
    have hnpre : strPrefixOf "https://" (jsToLower (serializeUrl u)) = false := by
      show List.isPrefixOf _ _ = false
      rw [hlowdata]
      exact isPrefixOf_eq_false_of_ne_at 4 (by decide)
        (by rw [List.getElem?_append_left (by decide)]; decide)
    have hpre : strPrefixOf "http://" (jsToLower (serializeUrl u)) = true := by
      show List.isPrefixOf _ _ = true
      rw [hlowdata, List.isPrefixOf_iff_prefix]
      exact List.prefix_append _ _
    unfold parseUrl
    rw [if_neg (by rw [hnpre]; simp), if_pos hpre]
    have hdrop : (serializeUrl u).data.drop 7 =
        u.host.data ++ u.path.data ++ (queryString u.params).data := by
      rw [hdata]
      exact List.drop_left' (by decide)
    rw [hdrop, ← hsc]
    exact parseUrlCore_serialize u hu

/-! ## The serialized output is whitespace-free and passes the
top-level checks of `normalizeMediaUrl` -/

theorem mem_joinQuery {ps : List (String × String)} :
    ∀ c ∈ (joinQuery ps).data,
      (∃ p ∈ ps, c ∈ p.1.data ∨ c ∈ p.2.data) ∨ c = '=' ∨ c = '&' := by
  induction ps with
  | nil => simp [joinQuery]
  | cons p rest ih =>
    cases rest with
    | nil =>
      intro c hc
      have hdq : (joinQuery [p]).data = p.1.data ++ '=' :: p.2.data := by
        show (p.1 ++ "=" ++ p.2).data = _
        simp
      rw [hdq] at hc
      rcases List.mem_append.mp hc with h | h
      · exact Or.inl ⟨p, List.mem_cons_self p [], Or.inl h⟩
      · rcases List.mem_cons.mp h with h | h
        · exact Or.inr (Or.inl h)
        · exact Or.inl ⟨p, List.mem_cons_self p [], Or.inr h⟩
    | cons q t =>
      intro c hc
      have hc' : c ∈ (p.1.data ++ '=' :: p.2.data) ++
          '&' :: (joinQuery (q :: t)).data := by
        have hdq : (joinQuery (p :: q :: t)).data =
            (p.1.data ++ '=' :: p.2.data) ++ '&' :: (joinQuery (q :: t)).data := by
          show (p.1 ++ "=" ++ p.2 ++ "&" ++ joinQuery (q :: t)).data = _
          simp
        rwa [hdq] at hc
      rcases List.mem_append.mp hc' with h | h
      · rcases List.mem_append.mp h with h | h
        · exact Or.inl ⟨p, List.mem_cons_self p _, Or.inl h⟩
        · rcases List.mem_cons.mp h with h | h
          · exact Or.inr (Or.inl h)
          · exact Or.inl ⟨p, List.mem_cons_self p _, Or.inr h⟩
      · rcases List.mem_cons.mp h with h | h
        · exact Or.inr (Or.inr h)
        · rcases ih c h with ⟨r, hr, hmem⟩ | h
          · exact Or.inl ⟨r, List.mem_cons_of_mem p hr, hmem⟩
          · exact Or.inr h

theorem noWs_of_mem_lit {c : Char} {l : List Char}
    (hall : l.all (fun c => !isJsWs c) = true) (h : c ∈ l) : isJsWs c = false := by
  have := List.all_eq_true.mp hall c h
  simpa using this

theorem serializeUrl_noWs (u : UrlModel) (hu : GoodUrl u) :
    ∀ c ∈ (serializeUrl u).data, isJsWs c = false := by
  intro c hc
  have hc' : c ∈ u.scheme.data ++ "://".data ++
      (u.host.data ++ u.path.data ++ (queryString u.params).data) := by
    have : (serializeUrl u).data = u.scheme.data ++ "://".data ++
        (u.host.data ++ u.path.data ++ (queryString u.params).data) := by
      show (u.scheme ++ "://" ++ u.host ++ u.path ++ queryString u.params).data = _
      simp
    rwa [this] at hc
  rcases List.mem_append.mp hc' with h | h
  · rcases List.mem_append.mp h with h | h
    · rcases hu.scheme_ok with hsc | hsc <;>
        · rw [hsc] at h
          exact noWs_of_mem_lit (by decide) h
    · exact noWs_of_mem_lit (by decide) h
  · rcases List.mem_append.mp h with h | h
    · rcases List.mem_append.mp h with h | h
      · exact (hu.host_ok c h).2.2.2
      · exact (hu.path_ok c h).2
    · cases hups : u.params with
      | nil =>
        rw [hups] at h
        simp [queryString] at h
      | cons p ps' =>
        rw [hups] at h
        have hq : (queryString (p :: ps')).data =
            '?' :: (joinQuery (p :: ps')).data := by
          show ("?" ++ joinQuery (p :: ps')).data = _
          simp
        rw [hq] at h
        rcases List.mem_cons.mp h with h | h
        · rw [h]; decide
        · rcases mem_joinQuery c h with ⟨r, hr, hmem⟩ | h
          · obtain ⟨hk, hv⟩ := hu.params_ok r (hups ▸ hr)
            rcases hmem with hm | hm
            · exact (hk c hm).2.2
            · exact (hv c hm).2
          · rcases h with h | h <;> · rw [h]; decide

theorem serializeUrl_head (u : UrlModel) (hu : GoodUrl u) :
    ∃ t, (serializeUrl u).data = 'h' :: t := by
  rcases hu.scheme_ok with hsc | hsc
  · refine ⟨"ttps://".data ++
      (u.host.data ++ u.path.data ++ (queryString u.params).data), ?_⟩
    show (u.scheme ++ "://" ++ u.host ++ u.path ++ queryString u.params).data = _
    rw [hsc]
    simp
  · refine ⟨"ttp://".data ++
      (u.host.data ++ u.path.data ++ (queryString u.params).data), ?_⟩
    show (u.scheme ++ "://" ++ u.host ++ u.path ++ queryString u.params).data = _
    rw [hsc]
    simp

theorem serializeUrl_ne_empty (u : UrlModel) (hu : GoodUrl u) :
    serializeUrl u ≠ "" := by
  obtain ⟨t, ht⟩ := serializeUrl_head u hu
  intro he
  rw [he] at ht
  exact List.cons_ne_nil 'h' t ht.symm

theorem isRelativePath_serialize (u : UrlModel) (hu : GoodUrl u) :
    isRelativePath (serializeUrl u) = false := by
  obtain ⟨t, ht⟩ := serializeUrl_head u hu
  unfold isRelativePath strPrefixOf
  rw [ht]
  rw [show ("/" : String).data = ['/'] from rfl,
    show ("./" : String).data = ['.', '/'] from rfl,
    show ("../" : String).data = ['.', '.', '/'] from rfl]
  simp [List.isPrefixOf_cons₂,
    show (('/' : Char) == 'h') = false from by decide,
    show (('.' : Char) == 'h') = false from by decide]

theorem isHttpUrl_serialize (u : UrlModel) (hu : GoodUrl u) :
    isHttpUrl (serializeUrl u) = true := by
  rcases hu.scheme_ok with hsc | hsc
  · have hlowdata : (jsToLower (serializeUrl u)).data = "https://".data ++
        List.map Char.toLower
          (u.host.data ++ u.path.data ++ (queryString u.params).data) := by
      show List.map Char.toLower (serializeUrl u).data = _
      rw [show (serializeUrl u).data = "https://".data ++
          (u.host.data ++ u.path.data ++ (queryString u.params).data) from by
        show (u.scheme ++ "://" ++ u.host ++ u.path ++ queryString u.params).data = _
        rw [hsc]
        simp]
      rw [List.map_append]
      congr 1
    have h2 : strPrefixOf "https://" (jsToLower (serializeUrl u)) = true := by
      show List.isPrefixOf _ _ = true
      rw [hlowdata, List.isPrefixOf_iff_prefix]
      exact List.prefix_append _ _
    unfold isHttpUrl
    rw [h2, Bool.or_true]
  · have hlowdata : (jsToLower (serializeUrl u)).data = "http://".data ++
        List.map Char.toLower
          (u.host.data ++ u.path.data ++ (queryString u.params).data) := by
      show List.map Char.toLower (serializeUrl u).data = _
      rw [show (serializeUrl u).data = "http://".data ++
          (u.host.data ++ u.path.data ++ (queryString u.params).data) from by
        show (u.scheme ++ "://" ++ u.host ++ u.path ++ queryString u.params).data = _
        rw [hsc]
        simp]
      rw [List.map_append]
      congr 1
    have h1 : strPrefixOf "http://" (jsToLower (serializeUrl u)) = true := by
      show List.isPrefixOf _ _ = true
      rw [hlowdata, List.isPrefixOf_iff_prefix]
      exact List.prefix_append _ _
    unfold isHttpUrl
    rw [h1, Bool.true_or]

/-- Normalizing a serialized well-formed URL reduces to the provider
dispatch on the parsed value. -/
theorem norm_serialize (u : UrlModel) (hu : GoodUrl u) :
    normalizeMediaUrl (serializeUrl u) = normBranch u := by
  simp only [normalizeMediaUrl]
  rw [jsTrim_of_noWs (serializeUrl_noWs u hu),
    if_neg (serializeUrl_ne_empty u hu),
    if_neg (by rw [isRelativePath_serialize u hu, isHttpUrl_serialize u hu]; simp),
    parse_serialize u hu]

/-! ## Further association-list lemmas for the Dropbox rewrite -/

theorem hasKey_setKey_self {α : Type u} (m : List (String × α)) (k : String)
    (v : α) : hasKey (setKey m k v) k = true :=
  hasKey_of_getKey_some _ _ _ (getKey_setKey_self m k v)

theorem replaceKey_of_not_hasKey {α : Type u} {m : List (String × α)}
    {k : String} (v : α) (h : hasKey m k = false) : replaceKey m k v = m := by
  induction m with
  | nil => rfl
  | cons p rest ih =>
    by_cases hk : p.1 = k
    · rw [hasKey, if_pos hk] at h
      cases h
    · rw [hasKey, if_neg hk] at h
      show (if p.1 = k then (p.1, v) else p) :: replaceKey rest k v = p :: rest
      rw [if_neg hk, ih h]

theorem replaceKey_replaceKey {α : Type u} (m : List (String × α)) (k : String)
    (v : α) : replaceKey (replaceKey m k v) k v = replaceKey m k v := by
  unfold replaceKey
  rw [List.map_map]
  apply List.map_congr_left
  intro p _
  by_cases hk : p.1 = k <;> simp [Function.comp, hk]

theorem hasKey_append_single {α : Type u} (m : List (String × α))
    (k k' : String) (v : α) :
    hasKey (m ++ [(k, v)]) k' = (hasKey m k' || (k = k')) := by
  induction m with
  | nil =>
    show hasKey [(k, v)] k' = (false || (k = k'))
    rw [Bool.false_or]
    by_cases hk : k = k' <;> simp [hasKey, hk]
  | cons p rest ih =>
    show (if p.1 = k' then true else hasKey (rest ++ [(k, v)]) k') = _
    by_cases hp : p.1 = k' <;> simp [hasKey, hp, ih]

theorem hasKey_replaceKey {α : Type u} (m : List (String × α)) (k k' : String)
    (v : α) : hasKey (replaceKey m k v) k' = hasKey m k' := by
  induction m with
  | nil => rfl
  | cons p rest ih =>
    show hasKey ((if p.1 = k then (p.1, v) else p) :: replaceKey rest k v) k' = _
    by_cases hk : p.1 = k
    · rw [if_pos hk]
      by_cases hk' : p.1 = k' <;> simp [hasKey, hk', ih]
    · rw [if_neg hk]
      by_cases hk' : p.1 = k' <;> simp [hasKey, hk', ih]

theorem hasKey_setKey_ne {α : Type u} (m : List (String × α)) {k k' : String}
    (v : α) (hne : k ≠ k') : hasKey (setKey m k v) k' = hasKey m k' := by
  unfold setKey
  by_cases h : hasKey m k
  · rw [if_pos h, hasKey_replaceKey]
  · rw [if_neg h, hasKey_append_single]
    simp [hne]

theorem setKey_setKey_same {α : Type u} (m : List (String × α)) (k : String)
    (v : α) : setKey (setKey m k v) k v = setKey m k v := by
  by_cases h : hasKey m k = true
  · have hin : setKey m k v = replaceKey m k v := by
      unfold setKey
      rw [if_pos h]
    have h2 : hasKey (replaceKey m k v) k = true := by
      rw [hasKey_replaceKey]
      exact h
    rw [hin]
    unfold setKey
    rw [if_pos h2, replaceKey_replaceKey]
  · have h' : hasKey m k = false := by simpa using h
    have hin : setKey m k v = m ++ [(k, v)] := by
      unfold setKey
      rw [h']
      simp
    have h2 : hasKey (m ++ [(k, v)]) k = true := by
      rw [hasKey_append_single]
      simp
    rw [hin]
    unfold setKey
    rw [if_pos h2]
    show replaceKey (m ++ [(k, v)]) k v = m ++ [(k, v)]
    unfold replaceKey
    rw [List.map_append]
    congr 1
    · exact replaceKey_of_not_hasKey v h'
    · simp

/-! ## The Dropbox parameter rewrite is a closure -/

theorem good_setKey {ps : List (String × String)}
    (hps : ∀ p ∈ ps, GoodKey p.1 ∧ GoodVal p.2) {k v : String}
    (hk : GoodKey k) (hv : GoodVal v) :
    ∀ p ∈ setKey ps k v, GoodKey p.1 ∧ GoodVal p.2 := by
  intro p hp
  unfold setKey at hp
  split at hp
  · obtain ⟨q, hq, hfq⟩ := List.mem_map.mp hp
    by_cases hqk : q.1 = k
    · rw [if_pos hqk] at hfq
      rw [← hfq]
      exact ⟨(hps q hq).1, hv⟩
    · rw [if_neg hqk] at hfq
      rw [← hfq]
      exact hps q hq
  · rcases List.mem_append.mp hp with h | h
    · exact hps p h
    · have hpkv : p = (k, v) := by simpa using h
      rw [hpkv]
      exact ⟨hk, hv⟩

theorem goodKey_dl : GoodKey "dl" := by
  unfold GoodKey
  decide

theorem goodKey_raw : GoodKey "raw" := by
  unfold GoodKey
  decide

theorem goodVal_one : GoodVal "1" := by
  unfold GoodVal
  decide

theorem dbParams_good {ps : List (String × String)}
    (hps : ∀ p ∈ ps, GoodKey p.1 ∧ GoodVal p.2) :
    ∀ p ∈ dbParams ps, GoodKey p.1 ∧ GoodVal p.2 := by
  unfold dbParams
  split
  · exact good_setKey hps goodKey_dl goodVal_one
  · split
    · exact good_setKey hps goodKey_raw goodVal_one
    · exact hps

theorem dbParams_idem (ps : List (String × String)) :
    dbParams (dbParams ps) = dbParams ps := by
  by_cases h : hasKey ps "dl" = true
  · have h1 : dbParams ps = setKey ps "dl" "1" := by
      unfold dbParams
      rw [if_pos h]
    rw [h1]
    unfold dbParams
    rw [if_pos (hasKey_setKey_self ps "dl" "1")]
    exact setKey_setKey_same ps "dl" "1"
  · have h' : hasKey ps "dl" = false := by simpa using h
    by_cases hr : hasKey ps "raw" = true
    · have h1 : dbParams ps = ps := by
        unfold dbParams
        rw [h', hr]
        simp
      rw [h1]
      exact h1
    · have hr' : hasKey ps "raw" = false := by simpa using hr
      have h1 : dbParams ps = setKey ps "raw" "1" := by
        unfold dbParams
        rw [h', hr']
        simp
      rw [h1]
      unfold dbParams
      rw [hasKey_setKey_ne ps "1" (by decide), h',
        hasKey_setKey_self ps "raw" "1"]
      simp

/-- Any `GoodUrl` stays good when its parameters are replaced by good
parameters. -/
theorem GoodUrl.withParams {u : UrlModel} (hu : GoodUrl u)
    {ps : List (String × String)}
    (hps : ∀ p ∈ ps, GoodKey p.1 ∧ GoodVal p.2) :
    GoodUrl { u with params := ps } :=
  { scheme_ok := hu.scheme_ok
    host_ne := hu.host_ne
    host_ok := hu.host_ok
    host_lower := hu.host_lower
    path_shape := hu.path_shape
    path_ok := hu.path_ok
    params_ok := hps }

/-! ## Stability of the Google Drive direct-download template -/

theorem str_ne_empty_iff {s : String} : s ≠ "" ↔ s.data ≠ [] := by
  constructor
  · intro h hd
    exact h (String.ext hd)
  · intro h he
    apply h
    rw [he]

/-- The parsed form of `https://drive.google.com/uc?export=download&id=i`. -/
def driveTemplateUrl (i : String) : UrlModel :=
  { scheme := "https"
    host := "drive.google.com"
    path := "/uc"
    params := [("export", "download"), ("id", i)] }

theorem driveTemplate_serialize (i : String) :
    serializeUrl (driveTemplateUrl i) =
      "https://drive.google.com/uc?export=download&id=" ++ i := rfl

theorem driveTemplateUrl_good {i : String} (hamp : ('&' : Char) ∉ i.data)
    (hws : ∀ c ∈ i.data, isJsWs c = false) : GoodUrl (driveTemplateUrl i) :=
  { scheme_ok := Or.inl rfl
    host_ne := by
      show ("drive.google.com" : String).data ≠ []
      decide
    host_ok := by
      show ∀ c ∈ ("drive.google.com" : String).data, GoodHostChar c
      unfold GoodHostChar
      decide
    host_lower := by
      show jsToLower "drive.google.com" = "drive.google.com"
      decide
    path_shape := ⟨['u', 'c'], rfl⟩
    path_ok := by
      show ∀ c ∈ ("/uc" : String).data, c ≠ '?' ∧ isJsWs c = false
      decide
    params_ok := by
      intro p hp
      rcases List.mem_cons.mp hp with h | h
      · rw [h]
        exact ⟨by unfold GoodKey; decide, by unfold GoodVal; decide⟩
      · have hpid : p = ("id", i) := by simpa using h
        rw [hpid]
        refine ⟨?_, fun c hc => ⟨fun he => hamp (he ▸ hc), hws c hc⟩⟩
        show GoodKey "id"
        unfold GoodKey
        decide }

theorem norm_driveTemplate {i : String} (hne : i.data ≠ [])
    (hamp : ('&' : Char) ∉ i.data) (hws : ∀ c ∈ i.data, isJsWs c = false) :
    normalizeMediaUrl ("https://drive.google.com/uc?export=download&id=" ++ i) =
      "https://drive.google.com/uc?export=download&id=" ++ i := by
  have hgood := driveTemplateUrl_good hamp hws
  rw [← driveTemplate_serialize i, norm_serialize _ hgood]
  simp only [normBranch]
  rw [show (driveTemplateUrl i).host = "drive.google.com" from rfl,
    if_neg (by decide : ¬(containsSub "dropbox.com" "drive.google.com" = true)),
    if_pos (by decide : containsSub "drive.google.com" "drive.google.com" = true)]
  have hid : driveIdOf (driveTemplateUrl i) = i := by
    unfold driveIdOf
    rw [show matchFileDriveId (driveTemplateUrl i).path = none from rfl]
    show (getKey [("export", "download"), ("id", i)] "id").getD "" = i
    rw [show getKey [("export", "download"), ("id", i)] "id" = some i from by
      unfold getKey
      rw [if_neg (by decide)]
      unfold getKey
      rw [if_pos rfl]]
    rfl
  rw [hid, if_pos (str_ne_empty_iff.mpr hne)]
  exact (driveTemplate_serialize i).symm

/-! ## Stability of every `normBranch` outcome -/

theorem getKey_mem {α : Type u} {m : List (String × α)} {k : String} {v : α}
    (h : getKey m k = some v) : ∃ p ∈ m, p.1 = k ∧ p.2 = v := by
  induction m with
  | nil => cases h
  | cons p rest ih =>
    by_cases hk : p.1 = k
    · rw [getKey, if_pos hk] at h
      injection h with hv
      exact ⟨p, List.mem_cons_self p rest, hk, hv⟩
    · rw [getKey, if_neg hk] at h
      obtain ⟨q, hq, hqk, hqv⟩ := ih h
      exact ⟨q, List.mem_cons_of_mem p hq, hqk, hqv⟩

theorem matchFileDriveId_facts {path i : String}
    (h : matchFileDriveId path = some i) :
    i.data ≠ [] ∧ ∀ c ∈ i.data, c ∈ path.data ∧ c ≠ '/' := by
  unfold matchFileDriveId at h
  cases hf : findSub "/file/d/".data path.data with
  | none =>
    rw [hf] at h
    cases h
  | some rest =>
    rw [hf] at h
    have h' : (if rest.takeWhile (fun c => c != '/') = [] then none
        else some (String.mk (rest.takeWhile (fun c => c != '/')))) = some i := h
    by_cases hne : rest.takeWhile (fun c => c != '/') = []
    · rw [if_pos hne] at h'
      cases h'
    · rw [if_neg hne] at h'
      injection h' with hi
      constructor
      · rw [← hi]
        exact hne
      · intro c hc
        rw [← hi] at hc
        have hc' : c ∈ rest.takeWhile (fun c => c != '/') := hc
        refine ⟨mem_of_mem_findSub hf c ((List.takeWhile_prefix _).subset hc'), ?_⟩
        have := mem_takeWhile_pred c hc'
        simpa [bne_iff_ne] using this

/-- All facts needed about the drive id actually selected by
`driveIdOf`. -/
theorem driveIdOf_facts {url : UrlModel} (hu : GoodUrl url)
    (hdr : ∀ i, matchFileDriveId url.path = some i → ('&' : Char) ∉ i.data)
    (hid : driveIdOf url ≠ "") :
    (driveIdOf url).data ≠ [] ∧ ('&' : Char) ∉ (driveIdOf url).data ∧
      ∀ c ∈ (driveIdOf url).data, isJsWs c = false := by
  cases hm : matchFileDriveId url.path with
  | some i =>
    have hdi : driveIdOf url = i := by
      unfold driveIdOf
      rw [hm]
    rw [hdi] at hid ⊢
    obtain ⟨hne, hmem⟩ := matchFileDriveId_facts hm
    exact ⟨hne, hdr i hm, fun c hc => (hu.path_ok c (hmem c hc).1).2⟩
  | none =>
    cases hg : getKey url.params "id" with
    | none =>
      have hdi : driveIdOf url = "" := by
        unfold driveIdOf
        rw [hm, hg]
        rfl
      exact absurd hdi hid
    | some v =>
      have hdi : driveIdOf url = v := by
        unfold driveIdOf
        rw [hm, hg]
        rfl
      rw [hdi] at hid ⊢
      obtain ⟨p, hp, hpk, hpv⟩ := getKey_mem hg
      have hgv : GoodVal p.2 := (hu.params_ok p hp).2
      rw [hpv] at hgv
      refine ⟨str_ne_empty_iff.mp hid, ?_, ?_⟩
      · exact fun hm' => (hgv '&' hm').1 rfl
      · exact fun c hc => (hgv c hc).2

/-- A second normalization of any `normBranch` output is the identity,
given the `&`-free drive id guard. -/
theorem normBranch_stable (url : UrlModel) (hu : GoodUrl url)
    (hdr : ∀ i, containsSub "dropbox.com" url.host = false →
      containsSub "drive.google.com" url.host = true →
      matchFileDriveId url.path = some i → ('&' : Char) ∉ i.data) :
    normalizeMediaUrl (normBranch url) = normBranch url := by
  by_cases hdb : containsSub "dropbox.com" url.host = true
  · have hb : normBranch url =
        serializeUrl { url with params := dbParams url.params } := by
      unfold normBranch
      rw [if_pos hdb]
    have hu' : GoodUrl { url with params := dbParams url.params } :=
      hu.withParams (dbParams_good hu.params_ok)
    rw [hb, norm_serialize _ hu']
    unfold normBranch
    rw [show ({ url with params := dbParams url.params } : UrlModel).host =
      url.host from rfl, if_pos hdb]
    show serializeUrl { url with params := dbParams (dbParams url.params) } =
      serializeUrl { url with params := dbParams url.params }
    rw [dbParams_idem]
  · have hdb' : containsSub "dropbox.com" url.host = false := by simpa using hdb
    by_cases hdg : containsSub "drive.google.com" url.host = true
    · have hb : normBranch url =
          (if driveIdOf url ≠ ""
            then "https://drive.google.com/uc?export=download&id=" ++ driveIdOf url
            else serializeUrl url) := by
        simp only [normBranch]
        rw [if_neg (by rw [hdb']; simp), if_pos hdg]
      by_cases hid : driveIdOf url ≠ ""
      · rw [hb, if_pos hid]
        obtain ⟨h1, h2, h3⟩ := driveIdOf_facts hu (fun i => hdr i hdb' hdg) hid
        exact norm_driveTemplate h1 h2 h3
      · rw [hb, if_neg hid, norm_serialize url hu]
        unfold normBranch
        rw [if_neg (by rw [hdb']; simp), if_pos hdg]
        simp only []
        rw [if_neg hid]
    · have hdg' : containsSub "drive.google.com" url.host = false := by
        simpa using hdg
      have hb : normBranch url = serializeUrl url := by
        unfold normBranch
        rw [if_neg (by rw [hdb']; simp), if_neg (by rw [hdg']; simp)]
      rw [hb, norm_serialize url hu, hb]

/-! ## C6: idempotence of `normalizeMediaUrl` -/

def driveAmpersandExample : String := "https://drive.google.com/file/d/a&b/view"

/-- C6 counterexample: a Google-Drive-host input whose `/file/d/` file-id
segment contains `&` is not normalized idempotently: the first pass yields
`...uc?export=download&id=a&b`, and the second pass re-parses that query
and truncates the id to `a`, changing the string. -/
theorem normalizeMediaUrl_not_idem_drive_ampersand :
    normalizeMediaUrl (normalizeMediaUrl driveAmpersandExample) ≠
      normalizeMediaUrl driveAmpersandExample := by
  decide

/-- C6 (amended): `normalizeMediaUrl` is idempotent on every
whitespace-free input — covering all Dropbox-host inputs, all
Google-Drive-host inputs except those whose `/file/d/` file-id segment
contains `&` (the counterexample), and all other absolute URLs — and on
every pass-through input (blank, relative path, non-HTTP). Whitespace-free
delimits the modelled URL subset: the browser URL API percent-encodes
whitespace, and percent-encoding is outside the model. -/
theorem normalizeMediaUrl_idem_amended (x y : String)
    (hws : ∀ c ∈ x.data, isJsWs c = false)
    (hdrive : ∀ url i, parseUrl x = some url →
      containsSub "dropbox.com" url.host = false →
      containsSub "drive.google.com" url.host = true →
      matchFileDriveId url.path = some i → ('&' : Char) ∉ i.data)
    (hy : jsTrim y = "" ∨ isRelativePath (jsTrim y) = true
      ∨ isHttpUrl (jsTrim y) = false) :
    normalizeMediaUrl (normalizeMediaUrl x) = normalizeMediaUrl x
    ∧ normalizeMediaUrl (normalizeMediaUrl y) = normalizeMediaUrl y := by
  constructor
  · have hxtrim : jsTrim x = x := jsTrim_of_noWs hws
    by_cases h0 : x = ""
    · subst h0
      decide
    · by_cases hcond : (isRelativePath x || !isHttpUrl x) = true
      · have h1 : normalizeMediaUrl x = x := by
          simp only [normalizeMediaUrl]
          rw [hxtrim, if_neg h0, if_pos hcond]
        rw [h1]
        exact h1
      · have hcond' : (isRelativePath x || !isHttpUrl x) = false := by
          simpa using hcond
        cases hp : parseUrl x with
        | none =>
          have h1 : normalizeMediaUrl x = x := by
            simp only [normalizeMediaUrl]
            rw [hxtrim, if_neg h0, if_neg (by rw [hcond']; simp), hp]
          rw [h1]
          exact h1
        | some url =>
          have hgood : GoodUrl url := parseUrl_good hws hp
          have h1 : normalizeMediaUrl x = normBranch url := by
            simp only [normalizeMediaUrl]
            rw [hxtrim, if_neg h0, if_neg (by rw [hcond']; simp), hp]
          rw [h1]
          exact normBranch_stable url hgood
            (fun i hdb hdg hm => hdrive url i hp hdb hdg hm)
  · by_cases h0 : jsTrim y = ""
    · have h1 : normalizeMediaUrl y = "" := by
        simp only [normalizeMediaUrl]
        rw [if_pos h0]
      rw [h1]
      decide
    · have hcond : (isRelativePath (jsTrim y) || !isHttpUrl (jsTrim y)) = true := by
        rcases hy with h | h | h
        · exact absurd h h0
        · simp [h]
        · simp [h]
      have h1 : normalizeMediaUrl y = jsTrim y := by
        simp only [normalizeMediaUrl]
        rw [if_neg h0, if_pos hcond]
      rw [h1]
      simp only [normalizeMediaUrl]
      rw [jsTrim_idem y, if_neg h0, if_pos hcond]

/-- The parsed form of the Google Drive share example, used by the C6
witness. -/
def driveShareParsed : UrlModel :=
  { scheme := "https"
    host := "drive.google.com"
    path := "/file/d/FILEID/view"
    params := [("usp", "sharing")] }

/-- Witness for C6 (amended) at the Google Drive share link and the
relative path, discharging both universal hypotheses concretely. -/
theorem normalizeMediaUrl_idem_amended_witness :
    normalizeMediaUrl (normalizeMediaUrl driveShareExample) =
      normalizeMediaUrl driveShareExample
    ∧ normalizeMediaUrl (normalizeMediaUrl "/audio/mon.mp3") =
      normalizeMediaUrl "/audio/mon.mp3" :=
  normalizeMediaUrl_idem_amended driveShareExample "/audio/mon.mp3"
    (by decide)
    (by
      intro url i hp hdb hdg hm
      rw [show parseUrl driveShareExample = some driveShareParsed from by decide]
        at hp
      injection hp with hu
      rw [← hu] at hm
      rw [show matchFileDriveId driveShareParsed.path = some "FILEID" from by
        decide] at hm
      injection hm with hi
      rw [← hi]
      decide)
    (Or.inr (Or.inl (by decide)))

end VibeFit
